import Mathlib

/-!
Verification development for the tensor-expression core in
src/lib/tensor/tensor.hpp and src/lib/tensor/fraction.hpp.

The expression tree, its evaluators and its factories are translated from
tensor.hpp.  The collaborator headers for indices, permutations and the
scalar facade (index.hpp / permutation.hpp / scalar.hpp) are not part of the
source tree; the definitions that stand in for them are modelled from the
specification and are marked as such in their doc comments.  Numeric scalars
are modelled by exact rationals.
-/

namespace Construction

/-- Error kinds surfaced by the engine (section 7 of the specification and the
exception classes of tensor.hpp). -/
inductive TErr where
  | incompleteIndexAssignment
  | cannotAdd
  | cannotMultiply
  | cannotContract
  | wrongFormat
  | assertFailed
  | notAPermutation
deriving DecidableEq, Repr

/-- Modelled from the spec: IndexRange is an inclusive pair of non-negative
integers (spec section 3); the class itself lives in a header that is not
under src/. -/
structure IndexRange where
  lo : Nat
  hi : Nat
deriving DecidableEq, Repr

/-- Modelled from the spec: an Index is a named, ranged, typed symbolic index
(spec section 3); the class itself lives in a header that is not under src/. -/
structure Index where
  name : String
  range : IndexRange
  contravariant : Bool
deriving DecidableEq, Repr

instance : Inhabited Index := ⟨⟨"", ⟨0, 0⟩, false⟩⟩

/-- Modelled from the spec: two indices are equal iff names and ranges match
(spec section 3); the contravariance flag does not participate. -/
def indexEq (a b : Index) : Bool :=
  a.name == b.name && a.range.lo == b.range.lo && a.range.hi == b.range.hi

/-- Values of an inclusive range, in increasing order. -/
def rangeValues (r : IndexRange) : List Nat :=
  (List.range (r.hi + 1 - r.lo)).map (fun k => r.lo + k)

/-- Membership of an index in an index sequence, via the spec equality of
indices (Indices.ContainsIndex). -/
def containsIndex (l : List Index) (i : Index) : Bool :=
  l.any (fun j => indexEq j i)

/-- Membership of a name among the names of an index sequence. -/
def containsName (l : List Index) (s : String) : Bool :=
  l.any (fun j => j.name == s)

/-- Modelled from the spec: Indices.Contract yields the sequence of indices
appearing in exactly one operand, i.e. the concatenation with the names
appearing in both operands dropped (spec section 4.1); the implementation is
in a header that is not under src/. -/
def contractIndices (a b : List Index) : List Index :=
  (a ++ b).filter (fun i => !(containsName a i.name && containsName b i.name))

/-- Modelled from the spec: Indices.Shuffle substitutes each index through the
mapping, keeping indices that are not in the mapping (spec section 4.1).  The
std map is keyed by the name ordering of indices. -/
def shuffleIndices (m : List (Index × Index)) (l : List Index) : List Index :=
  l.map (fun i =>
    match m.find? (fun p => p.1.name == i.name) with
    | some p => p.2
    | none => i)

/-- Insertion step of the stable name sort used for Indices.Ordered. -/
def insertByName (i : Index) : List Index → List Index
  | [] => [i]
  | j :: rest => if i.name < j.name then i :: j :: rest else j :: insertByName i rest

/-- Modelled from the spec: Indices.Ordered is the stable sort of the sequence
by name (spec section 3). -/
def orderedIndices : List Index → List Index
  | [] => []
  | i :: rest => insertByName i (orderedIndices rest)

/-- Position of the first index with the given name. -/
def posOfName (l : List Index) (n : String) : Nat :=
  l.findIdx (fun i => i.name == n)

/-- Modelled from the spec: Permutation.From(a, b) records, for every slot of
b, the position in a holding the same index, so that applying the permutation
to a yields b (spec section 3). -/
def permutationFrom (a b : List Index) : List Nat :=
  b.map (fun i => posOfName a i.name)

/-- Application of a recorded permutation to an index sequence. -/
def applyPermutation (p : List Nat) (xs : List Index) : List Index :=
  p.map (fun k => xs.getD k default)

/-- Number of inversions of a position list. -/
def inversions (l : List Nat) : Nat :=
  ((List.range l.length).map (fun p =>
    ((List.range l.length).filter (fun q => p < q && l.getD q 0 < l.getD p 0)).length)).sum

/-- Modelled from the spec: the sign of a permutation is computed by counting
inversions (spec section 4.1). -/
def permutationSign (l : List Nat) : Int :=
  if inversions l % 2 == 0 then 1 else -1

/-- Modelled from the spec: all index combinations are produced by fixing the
indices one by one until all have a value (tensor.hpp doc of
GetAllIndexCombinations); each index ranges over its inclusive range. -/
def getAllIndexCombinations : List Index → List (List Nat)
  | [] => [[]]
  | i :: rest =>
      (rangeValues i.range).flatMap
        (fun v => (getAllIndexCombinations rest).map (fun c => v :: c))

/-- Modelled from the spec: IndexAssignments maps index names to unsigned
values (spec section 3). -/
def IndexAssignments := List (String × Nat)

/-- Map write with the std map semantics: replace the entry for the name when
present, append it otherwise. -/
def assignSet (a : IndexAssignments) (n : String) (v : Nat) : IndexAssignments :=
  if (List.any a (fun p => p.1 == n)) then
    List.map (fun p => if p.1 == n then (n, v) else p) a
  else
    List.append a [(n, v)]

/-- Map lookup by name. -/
def assignFind (a : IndexAssignments) (n : String) : Option Nat :=
  (List.find? (fun p => p.1 == n) a).map (fun p => p.2)

/-- Modelled from the spec: applying an IndexAssignments object to an index
sequence yields the positional value vector; a name without a value raises
the incomplete-index-assignment error (spec sections 3 and 7). -/
def applyAssignments (a : IndexAssignments) (l : List Index) : Except TErr (List Nat) :=
  l.mapM (fun i =>
    match assignFind a i.name with
    | some v => Except.ok v
    | none => Except.error TErr.incompleteIndexAssignment)

/-- Build the name-to-value assignment that AddedTensor.Evaluate and
SubstituteTensor.Evaluate construct from the declared index sequence and the
positional arguments. -/
def buildAssignment (indices : List Index) (args : List Nat) : IndexAssignments :=
  (indices.zip args).foldl (fun a p => assignSet a p.1.name p.2) []

/-- The expression tree of tensor.hpp as a tagged sum.  Every variant carries
the header index sequence; generic is the sliced base-class object (its tag
field records the copied type tag). -/
inductive TensorExpr where
  | generic (nm printable : String) (indices : List Index) (tag : Int)
  | zero (indices : List Index)
  | scalarT (nm printable : String) (indices : List Index) (value : Rat)
  | delta (indices : List Index)
  | epsilonT (indices : List Index)
  | gammaT (indices : List Index) (p q : Int)
  | epsilonGamma (numEpsilon numGamma : Nat) (indices : List Index)
  | added (summands : List TensorExpr) (indices : List Index)
  | multiplied (A B : TensorExpr) (indices : List Index)
  | scaled (A : TensorExpr) (c : Rat) (indices : List Index)
  | substitute (A : TensorExpr) (indices : List Index)

namespace TensorExpr

/-- Header index sequence of a node (AbstractTensor.GetIndices). -/
def getIndices : TensorExpr → List Index
  | .generic _ _ idx _ => idx
  | .zero idx => idx
  | .scalarT _ _ idx _ => idx
  | .delta idx => idx
  | .epsilonT idx => idx
  | .gammaT idx _ _ => idx
  | .epsilonGamma _ _ idx => idx
  | .added _ idx => idx
  | .multiplied _ _ idx => idx
  | .scaled _ _ idx => idx
  | .substitute _ idx => idx

/-- Numeric value of the TensorType tag of a node (the enum of tensor.hpp).
A generic node carries the tag value copied or read when it was made. -/
def typeTag : TensorExpr → Int
  | .generic _ _ _ tg => tg
  | .zero _ => 4
  | .scalarT _ _ _ _ => 101
  | .delta _ => 204
  | .epsilonT _ => 201
  | .gammaT _ _ _ => 202
  | .epsilonGamma _ _ _ => 203
  | .added _ _ => 1
  | .multiplied _ _ _ => 2
  | .scaled _ _ _ => 3
  | .substitute _ _ => 301

/-- IsZeroTensor of tensor.hpp: a comparison of the type tag. -/
def isZeroTensor (t : TensorExpr) : Bool := typeTag t == 4

/-- IsAddedTensor of tensor.hpp: a comparison of the type tag. -/
def isAddedTensor (t : TensorExpr) : Bool := typeTag t == 1

/-- IsScaledTensor of tensor.hpp: a comparison of the type tag. -/
def isScaledTensor (t : TensorExpr) : Bool := typeTag t == 3

/-- IsSubstitute of tensor.hpp: a comparison of the type tag. -/
def isSubstituteTensor (t : TensorExpr) : Bool := typeTag t == 301

/-- DeltaTensor constructor: asserts two indices, makes the first
contravariant and the second covariant. -/
def mkDelta (indices : List Index) : TensorExpr :=
  match indices with
  | [i, j] => .delta [{ i with contravariant := true }, { j with contravariant := false }]
  | l => .delta l

end TensorExpr

/-- Unsigned 32-bit wrap of an integer value. -/
def wrapU32 (n : Int) : Nat := (n % 4294967296).toNat

/-- Signed two's-complement 32-bit wrap of an integer value. -/
def wrapI32 (n : Int) : Int := (n + 2147483648) % 4294967296 - 2147483648

/-- Inner loop of EpsilonTensor.GetEpsilonComponents for a fixed position p
holding value x: the q loop multiplies the factors (args q - x) / (q - p),
with d counting the offset q - p upward from one. -/
def epsRow (x : Int) : List Nat → Nat → Rat
  | [], _ => 1
  | y :: ys, d => ((((y : Int) - x : Int) : Rat) / (d : Rat)) * epsRow x ys (d + 1)

/-- Outer loop of EpsilonTensor.GetEpsilonComponents over the position p. -/
def epsAll : List Nat → Rat
  | [] => 1
  | x :: xs => epsRow (x : Int) xs 1 * epsAll xs

/-- EpsilonTensor.GetEpsilonComponents: the closed form, the product over all
pairs p < q of (args q - args p) / (q - p), computed by the row-major double
loop of the source.  The machine doubles of the source are modelled by exact
rationals; the final zero normalisation (result != 0 ? result : 0) is the
identity on rationals. -/
def epsilonComponents (args : List Nat) : Rat := epsAll args

/-- Component rule of GammaTensor.Evaluate: zero off the diagonal; on the
diagonal -1 when the offset of the value from the lower range bound is below
the signature entry p, and +1 otherwise.  The subtraction and the comparison
are unsigned in the source, hence the 32-bit wraps. -/
def gammaComponents (lo : Nat) (p : Int) (a b : Nat) : Rat :=
  if a == b then
    (if wrapU32 ((a : Int) - (lo : Int)) < wrapU32 p then -1 else 1)
  else 0

/-- EpsilonGammaTensor.Partial applied to the argument vector: the slice of
the inclusive position range. -/
def sliceArgs (args : List Nat) (lo hi : Nat) : List Nat :=
  (List.range (hi + 1 - lo)).map (fun k => args.getD (lo + k) 0)

/-- Indices.Partial: the slice of the inclusive position range of an index
sequence. -/
def sliceIndices (l : List Index) (lo hi : Nat) : List Index :=
  (List.range (hi + 1 - lo)).map (fun k => l.getD (lo + k) default)

/-- Gamma block loop of EpsilonGammaTensor.Evaluate: each block of two
positions contributes a spatial metric component (signature (0,3)); a zero
accumulated value returns early. -/
def egGammaLoop (idx : List Index) (args : List Nat) : Nat → Nat → Rat → Rat
  | _, 0, acc => acc
  | pos, Nat.succ n, acc =>
      let gIdx := sliceIndices idx pos (pos + 1)
      let v := gammaComponents ((gIdx.getD 0 default).range.lo) 0
        (args.getD pos 0) (args.getD (pos + 1) 0)
      let acc2 := acc * v
      if acc2 == 0 then acc2 else egGammaLoop idx args (pos + 2) n acc2

/-- Epsilon block loop of EpsilonGammaTensor.Evaluate: each block of three
positions contributes an epsilon component; a zero accumulated value stops
the evaluation.  Returns the accumulated value, the next position and the
stop flag. -/
def egEpsilonLoop (args : List Nat) : Nat → Nat → Rat → Rat × Nat × Bool
  | pos, 0, acc => (acc, pos, false)
  | pos, Nat.succ n, acc =>
      let acc2 := acc * epsilonComponents (sliceArgs args pos (pos + 2))
      if acc2 == 0 then (acc2, pos, true) else egEpsilonLoop args (pos + 3) n acc2

/-- EpsilonGammaTensor.Evaluate: the epsilon blocks followed by the gamma
blocks, with the early return on a zero factor. -/
def epsilonGammaEval (ne ng : Nat) (idx : List Index) (args : List Nat) : Rat :=
  let r := egEpsilonLoop args 0 ne 1
  if r.2.2 then r.1 else egGammaLoop idx args r.2.1 ng r.1

namespace TensorExpr

/-- Component evaluation, the Evaluate methods of tensor.hpp.  The base class
and the sliced generic objects return zero; the argument-count checks and the
delta assertion are the fallible paths. -/
def evaluate : TensorExpr → List Nat → Except TErr Rat
  | .generic _ _ _ _, _ => .ok 0
  | .zero _, _ => .ok 0
  | .scalarT _ _ _ v, _ => .ok v
  | .delta _, args =>
      if args.length == 2 then .ok (if args.getD 0 0 == args.getD 1 0 then 1 else 0)
      else .error .assertFailed
  | .epsilonT _, args => .ok (epsilonComponents args)
  | .gammaT idx p _, args =>
      if args.length != 2 then .error .incompleteIndexAssignment
      else .ok (gammaComponents ((idx.getD 0 default).range.lo) p (args.getD 0 0) (args.getD 1 0))
  | .epsilonGamma ne ng idx, args => .ok (epsilonGammaEval ne ng idx args)
  | .added summands indices, args =>
      if args.length != indices.length then .error .incompleteIndexAssignment
      else do
        let assignment := buildAssignment indices args
        let vals ← summands.attach.mapM (fun st => do
          let pos ← applyAssignments assignment (getIndices st.val)
          evaluate st.val pos)
        pure (vals.foldl (fun a b => a + b) 0)
  | .multiplied A B indices, args =>
      if args.length != indices.length then .error .incompleteIndexAssignment
      else
        let contracted := (getIndices A).filter (fun i => !(containsIndex indices i))
        let contractedArgs := getAllIndexCombinations contracted
        let hasContractions := decide (0 < contractedArgs.length)
        let loopArgs := if !hasContractions then contractedArgs ++ [[0]] else contractedArgs
        do
          let terms ← loopArgs.mapM (fun targs => do
            let base1 : IndexAssignments :=
              if hasContractions then
                (contracted.zip targs).foldl (fun m p => assignSet m p.1.name p.2) []
              else []
            let base2 : IndexAssignments :=
              if hasContractions then
                (contracted.zip targs).foldl (fun m p => assignSet m p.1.name p.2) []
              else []
            let a1 := (indices.zip args).foldl
              (fun m p => if containsIndex (getIndices A) p.1 then assignSet m p.1.name p.2 else m)
              base1
            let a2 := (indices.zip args).foldl
              (fun m p => if containsIndex (getIndices B) p.1 then assignSet m p.1.name p.2 else m)
              base2
            let v1 ← applyAssignments a1 (getIndices A)
            let r1 ← evaluate A v1
            let v2 ← applyAssignments a2 (getIndices B)
            let r2 ← evaluate B v2
            pure (r1 * r2))
          pure (terms.foldl (fun a b => a + b) 0)
  | .scaled A c _, args => (evaluate A args).map (fun v => v * c)
  | .substitute A indices, args =>
      if args.length != indices.length then .error .incompleteIndexAssignment
      else do
        let assignment := buildAssignment indices args
        let pos ← applyAssignments assignment (getIndices A)
        evaluate A pos
termination_by t _ => sizeOf t
decreasing_by
  all_goals simp_wf
  all_goals first
    | (have hm := List.sizeOf_lt_of_mem st.property; omega)
    | omega

/-- The SetIndices methods: the base class assigns the header; Added and
Multiplied build the positional index mapping and shuffle every child;
Scaled pushes the new sequence into the child; Substitute re-routes through
the recorded permutation. -/
def setIndices (t : TensorExpr) (newIndices : List Index) : TensorExpr :=
  match t with
  | .generic nm pr _ tg => .generic nm pr newIndices tg
  | .zero _ => .zero newIndices
  | .scalarT nm pr _ v => .scalarT nm pr newIndices v
  | .delta _ => .delta newIndices
  | .epsilonT _ => .epsilonT newIndices
  | .gammaT _ p q => .gammaT newIndices p q
  | .epsilonGamma ne ng _ => .epsilonGamma ne ng newIndices
  | .added summands oldIdx =>
      let mapping := oldIdx.zip newIndices
      .added (summands.attach.map
        (fun st => setIndices st.val (shuffleIndices mapping (getIndices st.val)))) newIndices
  | .multiplied A B oldIdx =>
      let mapping := oldIdx.zip newIndices
      .multiplied (setIndices A (shuffleIndices mapping (getIndices A)))
        (setIndices B (shuffleIndices mapping (getIndices B))) newIndices
  | .scaled A c _ => .scaled (setIndices A newIndices) c newIndices
  | .substitute A oldIdx =>
      let permA := permutationFrom oldIdx (getIndices A)
      .substitute (setIndices A (applyPermutation permA newIndices)) newIndices
termination_by sizeOf t
decreasing_by
  all_goals simp_wf
  all_goals first
    | (have hm := List.sizeOf_lt_of_mem st.property; omega)
    | omega

/-- Insertion step of the sort of gamma index pairs by their first index
name (the lambda of EpsilonGammaTensor.Canonicalize). -/
def insertGammaPair (g : List Index) : List (List Index) → List (List Index)
  | [] => [g]
  | h :: rest =>
      if (g.getD 0 default).name < (h.getD 0 default).name then g :: h :: rest
      else h :: insertGammaPair g rest

/-- Sort of the gamma index pairs by their first index name. -/
def sortGammaPairs : List (List Index) → List (List Index)
  | [] => []
  | g :: rest => insertGammaPair g (sortGammaPairs rest)

/-- The Canonicalize methods.  Variants without an override (Zero, Scalar,
Multiplied, Substitute) fall back to the base implementation, which copies
only the base-class header into a fresh base object: the copy keeps the
header and the type tag but evaluates through the base Evaluate. -/
def canonicalize : TensorExpr → TensorExpr
  | .generic nm pr idx tg => .generic nm pr idx tg
  | .zero idx => .generic "0" "0" idx 4
  | .scalarT nm pr idx _ => .generic nm pr idx 101
  | .delta idx => .delta idx
  | .epsilonT idx =>
      let sorted := orderedIndices idx
      let sgn := permutationSign (permutationFrom idx sorted)
      if sgn < 0 then .scaled (.epsilonT sorted) (-1) sorted else .epsilonT sorted
  | .gammaT idx p q => .gammaT (orderedIndices idx) p q
  | .epsilonGamma ne ng idx =>
      let hasEps := ne == 1
      let eIdx := sliceIndices idx 0 2
      let sortedEps := orderedIndices eIdx
      let sgn := if hasEps then permutationSign (permutationFrom eIdx sortedEps) else 1
      let pos := if hasEps then 3 else 0
      let gammas := (List.range ng).map
        (fun i => orderedIndices (sliceIndices idx (pos + 2 * i) (pos + 2 * i + 1)))
      let newIdx := (if hasEps then sortedEps else []) ++ (sortGammaPairs gammas).flatten
      if sgn < 0 then .scaled (.epsilonGamma ne ng newIdx) (-1) newIdx
      else .epsilonGamma ne ng newIdx
  | .added summands idx => .added (summands.attach.map (fun st => canonicalize st.val)) idx
  | .multiplied _ _ idx => .generic "" "" idx 2
  | .scaled A c _ =>
      let newA := canonicalize A
      match newA with
      | .scaled B c2 idx2 => .scaled B (c * c2) idx2
      | x => .scaled x c (getIndices x)
  | .substitute _ idx => .generic "" "" idx 301
termination_by t => sizeOf t
decreasing_by
  all_goals simp_wf
  all_goals first
    | (have hm := List.sizeOf_lt_of_mem st.property; omega)
    | omega

/-- DeltaTensor.ContractionHeuristics: contract the two index sequences and
set the result on a clone of the other tensor; all other variants inherit
the base hook, which yields nothing.  The catch-all of the source converts
failures of the collaborator calls into the none answer, but the modelled
collaborator operations are total, so the delta hook always fires (the
containsContractions flag computed by Multiply is never consulted in the
source). -/
def contractionHeuristics (t other : TensorExpr) : Option TensorExpr :=
  match t with
  | .delta idx => some (setIndices other (contractIndices idx (getIndices other)))
  | _ => none

/-- AbstractTensor.Multiply of two tensors: try the contraction heuristics of
both operands, then the zero rules, then build the generic Multiplied node
whose header indices are the contraction of the children. -/
def multiplyT (one second : TensorExpr) : TensorExpr :=
  match contractionHeuristics one second with
  | some h => h
  | none =>
    match contractionHeuristics second one with
    | some h => h
    | none =>
      if one.isZeroTensor || second.isZeroTensor then .zero []
      else .multiplied one second (contractIndices (getIndices one) (getIndices second))

/-- AbstractTensor.Multiply of a tensor by a scalar: one and zero rules, the
scale-merging rule for Scaled, the push-down rule for Substitute, and the
generic Scaled wrap. -/
def multiplyScalar (one : TensorExpr) (c : Rat) : TensorExpr :=
  if c == 1 then one
  else if c == 0 then .zero []
  else if one.isZeroTensor then one
  else
    match one with
    | .scaled A c0 _ => .scaled A (c0 * c) (getIndices A)
    | .substitute A idx => .substitute (multiplyScalar A c) idx
    | t => .scaled t c (getIndices t)

/-- AddedTensor.AddFromRight on the first operand: push the second operand
as a new summand (the fallback arm covers the base-class cast misuse, which
the modelled flows never reach). -/
def addFromRight (one other : TensorExpr) : TensorExpr :=
  match one with
  | .added s idx => .added (s ++ [other]) idx
  | t => .added [t, other] (getIndices t)

/-- Merge of two Added operands in AbstractTensor.Add: the summand list of
the second is appended to the first (the fallback arm covers the base-class
cast misuse, which the modelled flows never reach). -/
def addMerge (one other : TensorExpr) : TensorExpr :=
  match one, other with
  | .added s idx, .added s2 _ => .added (s ++ s2) idx
  | a, b => .added [a, b] (getIndices a)

/-- AbstractTensor.Add: zero rules; push the second operand into a first
Added operand; the self-contradictory second branch of the source
(second added and second not added) is dead code and is kept as such; merge
two Added operands; otherwise build a fresh two-summand Added node. -/
def addT (one other : TensorExpr) : TensorExpr :=
  if one.isZeroTensor then other
  else if other.isZeroTensor then one
  else if one.isAddedTensor && !other.isAddedTensor then addFromRight one other
  else if other.isAddedTensor && !other.isAddedTensor then other
  else if one.isAddedTensor && other.isAddedTensor then addMerge one other
  else .added [one, other] (getIndices one)

/-- Tensor.Substitute factory: distribute over Added summands, pull scales
out of Scaled nodes, and wrap everything else in a Substitute node.  The
permutation precondition of the SubstituteTensor constructor is a fallible
path that the modelled flows never hit. -/
def substituteFactory (t : TensorExpr) (idx : List Index) : TensorExpr :=
  match t with
  | .added s _ =>
      s.attach.foldl (fun acc st => addT acc (substituteFactory st.val idx)) (.zero [])
  | .scaled A c _ => multiplyScalar (substituteFactory A idx) c
  | x => .substitute x idx
termination_by sizeOf t
decreasing_by
  all_goals simp_wf
  all_goals first
    | (have hm := List.sizeOf_lt_of_mem st.property; omega)
    | omega

/-- Tensor.SeparateScalefactor: detach the scale of a Scaled node, recurse
under Substitute re-wrapping through the Substitute factory, and return scale
one otherwise. -/
def separateScalefactor : TensorExpr → Rat × TensorExpr
  | .scaled A c _ => (c, A)
  | .substitute A idx =>
      let r := separateScalefactor A
      (r.1, substituteFactory r.2 idx)
  | t => (1, t)

/-- Header name written by Serialize: the name stored at construction (generic
and scalar nodes carry it as a field, the other variants fix it in their
constructors). -/
def nameOf : TensorExpr → String
  | .generic nm _ _ _ => nm
  | .zero _ => "0"
  | .scalarT nm _ _ _ => nm
  | .delta _ => ""
  | .epsilonT _ => "epsilon"
  | .gammaT _ _ _ => "gamma"
  | .epsilonGamma _ _ _ => ""
  | .added _ _ => ""
  | .multiplied _ _ _ => ""
  | .scaled _ _ _ => ""
  | .substitute _ _ => ""

/-- Header printed text written by Serialize. -/
def printableOf : TensorExpr → String
  | .generic _ pr _ _ => pr
  | .zero _ => "0"
  | .scalarT _ pr _ _ => pr
  | .delta _ => ""
  | .epsilonT _ => "\\epsilon"
  | .gammaT _ _ _ => "\\gamma"
  | .epsilonGamma _ _ _ => ""
  | .added _ _ => ""
  | .multiplied _ _ _ => ""
  | .scaled _ _ _ => ""
  | .substitute _ _ => ""

end TensorExpr

/-- Token alphabet of the tagged serialisation stream of section 4.11,
abstracted from the raw byte layout: the source writes the platform integer
layouts directly, and the index and scalar payloads are emitted by
collaborator classes that are not under src/ and are modelled as single
tokens. -/
inductive Tok where
  | str (s : String)
  | i32 (n : Int)
  | u32 (n : Nat)
  | sz (n : Nat)
  | idxs (l : List Index)
  | scal (q : Rat)
deriving DecidableEq, Repr

namespace TensorExpr

/-- AbstractTensor.Serialize: the shared header (name, printed text, indices,
type tag) followed by the per-variant payload.  The switch of the source has
no case for the EPSILON and DELTA tags (and none for CUSTOM), so those
variants serialise as a bare header. -/
def serialize (t : TensorExpr) : List Tok :=
  [Tok.str (nameOf t), Tok.str (printableOf t), Tok.idxs (getIndices t), Tok.i32 (typeTag t)]
  ++ (match t with
      | .added s _ => Tok.sz s.length :: (s.attach.map (fun st => serialize st.val)).flatten
      | .multiplied A B _ => serialize A ++ serialize B
      | .scaled A c _ => Tok.scal c :: serialize A
      | .substitute A _ => serialize A
      | .scalarT _ _ _ v => [Tok.scal v]
      | .gammaT _ p q => [Tok.i32 p, Tok.i32 q]
      | .epsilonGamma ne ng _ => [Tok.u32 ne, Tok.u32 ng]
      | _ => [])
termination_by sizeOf t
decreasing_by
  all_goals simp_wf
  all_goals first
    | (have hm := List.sizeOf_lt_of_mem st.property; omega)
    | omega

end TensorExpr

/-- Modelled from the spec: Indices.IsPermutationOf checks that the two
sequences hold the same indices up to order, with indices compared by name
and range. -/
def isPermutationOf (a b : List Index) : Bool :=
  decide (List.Perm (a.map (fun i => (i.name, i.range))) (b.map (fun i => (i.name, i.range))))

mutual

/-- AbstractTensor.Deserialize over the token stream, with explicit fuel in
place of the stream length.  Reads the shared header, dispatches on the tag;
a tag without a case (the EPSILON and DELTA tags among them) produces the
generic header-only placeholder, whose type field the source leaves
uninitialised (recorded here as the CUSTOM value -1).  The name and printed
text are reassigned after the dispatch, which for the modelled variants
restores the constructor values. -/
def deserializeGo : Nat → List Tok → Option (TensorExpr × List Tok)
  | 0, _ => none
  | fuel + 1, Tok.str nm :: Tok.str pr :: Tok.idxs idx :: Tok.i32 tg :: rest =>
      if tg == 1 then
        match rest with
        | Tok.sz n :: rest2 =>
            (deserializeList fuel n rest2).map
              (fun r => (TensorExpr.added r.1 idx, r.2))
        | _ => none
      else if tg == 2 then
        (deserializeGo fuel rest).bind (fun r1 =>
          (deserializeGo fuel r1.2).map (fun r2 =>
            (TensorExpr.multiplied r1.1 r2.1
              (contractIndices (r1.1.getIndices) (r2.1.getIndices)), r2.2)))
      else if tg == 3 then
        match rest with
        | Tok.scal c :: rest2 =>
            (deserializeGo fuel rest2).map
              (fun r => (TensorExpr.scaled r.1 c (r.1.getIndices), r.2))
        | _ => none
      else if tg == 4 then
        some (TensorExpr.zero [], rest)
      else if tg == 101 then
        match rest with
        | Tok.scal v :: rest2 => some (TensorExpr.scalarT nm pr [] v, rest2)
        | _ => none
      else if tg == 202 then
        match rest with
        | Tok.i32 p :: Tok.i32 q :: rest2 => some (TensorExpr.gammaT idx p q, rest2)
        | _ => none
      else if tg == 203 then
        match rest with
        | Tok.u32 ne :: Tok.u32 ng :: rest2 =>
            some (TensorExpr.epsilonGamma ne ng idx, rest2)
        | _ => none
      else if tg == 301 then
        (deserializeGo fuel rest).bind (fun r =>
          if isPermutationOf idx (r.1.getIndices) then
            some (TensorExpr.substitute r.1 idx, r.2)
          else none)
      else
        some (TensorExpr.generic nm pr idx (-1), rest)
  | _ + 1, _ => none

/-- Summand loop of AddedTensor.DoDeserialize. -/
def deserializeList : Nat → Nat → List Tok → Option (List TensorExpr × List Tok)
  | 0, _, _ => none
  | _ + 1, 0, rest => some ([], rest)
  | fuel + 1, n + 1, rest =>
      (deserializeGo fuel rest).bind (fun r =>
        (deserializeList fuel n r.2).map (fun rs => (r.1 :: rs.1, rs.2)))

end

/-- Element-wise equality of index sequences (Indices operator ==, with the
spec equality of indices). -/
def indicesEq (a b : List Index) : Bool :=
  a.length == b.length && (a.zip b).all (fun p => indexEq p.1 p.2)

/-- Decidable comparison of evaluation results. -/
def exceptEq (x y : Except TErr Rat) : Bool :=
  match x, y with
  | .ok a, .ok b => a == b
  | .error a, .error b => a == b
  | _, _ => false

/-- AbstractTensor.IsEqual: equal index sequences and equal components at
every index combination of the receiver. -/
def isEqual (t other : TensorExpr) : Bool :=
  if !(indicesEq (t.getIndices) (other.getIndices)) then false
  else (getAllIndexCombinations (t.getIndices)).all (fun c =>
    exceptEq (t.evaluate c) (other.evaluate c))

/-- Fraction of fraction.hpp: a signed 32-bit int numerator and an unsigned
32-bit denominator.  Machine arithmetic is modelled by explicit wraps;
signed overflow, undefined behaviour in C++, is modelled as two's-complement
wrapping. -/
structure Fraction where
  num : Int
  den : Nat
deriving DecidableEq, Repr

namespace Fraction

/-- Fraction.gcd of the source: the Euclidean loop on the absolute values of
its two int arguments. -/
def gcdInts (a b : Int) : Nat := Nat.gcd a.natAbs b.natAbs

/-- Fraction addition; operator+ and operator+= of the source compute the
same formula. -/
def add (f g : Fraction) : Fraction :=
  ⟨wrapI32 (f.num * g.den + g.num * f.den), wrapU32 ((f.den : Int) * g.den)⟩

/-- Fraction subtraction; operator- and operator-= of the source compute the
same formula. -/
def sub (f g : Fraction) : Fraction :=
  ⟨wrapI32 (f.num * g.den - g.num * f.den), wrapU32 ((f.den : Int) * g.den)⟩

/-- Fraction multiplication; operator* and operator*= of the source compute
the same formula. -/
def mul (f g : Fraction) : Fraction :=
  ⟨wrapI32 (f.num * g.num), wrapU32 ((f.den : Int) * g.den)⟩

/-- Fraction division; operator/ and operator/= of the source compute the
same formula: the numerator is multiplied by the divisor denominator, and
the unsigned denominator is multiplied by the divisor numerator converted to
unsigned. -/
def div (f g : Fraction) : Fraction :=
  ⟨wrapI32 (f.num * g.den), wrapU32 ((f.den : Int) * g.num)⟩

/-- Unary negation of a fraction. -/
def neg (f : Fraction) : Fraction := ⟨wrapI32 (-f.num), f.den⟩

/-- Fraction.Reduce: divide numerator and denominator by the gcd of the
numerator and the int-converted denominator; the divisions are the machine
divisions (truncation for the int numerator, floor for the unsigned
denominator). -/
def reduce (f : Fraction) : Fraction :=
  let g : Int := (gcdInts f.num (wrapI32 f.den) : Int)
  ⟨Int.tdiv f.num g, f.den / g.toNat⟩

end Fraction

/-- Accumulated state of the basis-collection loop of Tensor.Simplify: the
persistent column cursor k and the parallel scale and tensor maps. -/
structure CollectState where
  k : Nat
  scalars : List Rat
  tensors : List TensorExpr

/-- Outcome of scanning one row in the collection loop of Tensor.Simplify:
either a collected (scale, basis tensor) pair with the updated cursor, or
the abort of the SOMETHING WENT WRONG branch. -/
inductive RowOutcome where
  | term (scalar : Rat) (tensor : TensorExpr) (k2 : Nat)
  | abort

/-- Inner column loop of the collection stage of Tensor.Simplify, from column
i to the last column.  A zero entry is skipped; a unit entry before a base
is found becomes the base; later entries contribute scale times entry (the
two fmod branches of the source compute the same rational product); a
trailing non-zero non-unit entry without a base ends the row with no
information; any other pattern is the SOMETHING WENT WRONG branch. -/
def rowScanGo (row : List Rat) (summands : List TensorExpr) (m : Nat)
    (i : Nat) (scalar : Rat) (tensor : TensorExpr) (foundBase : Bool) (k : Nat) : RowOutcome :=
  if i < m then
    let v := row.getD i 0
    if v == 0 then rowScanGo row summands m (i + 1) scalar tensor foundBase k
    else if v == 1 && !foundBase then
      let sp := (summands.getD i (.zero [])).separateScalefactor
      rowScanGo row summands m (i + 1) sp.1 sp.2 true (i + 1)
    else if foundBase then
      let sp := (summands.getD i (.zero [])).separateScalefactor
      rowScanGo row summands m (i + 1) (scalar + sp.1 * v) tensor foundBase k
    else if i == m - 1 && !foundBase then
      RowOutcome.term scalar tensor k
    else RowOutcome.abort
  else RowOutcome.term scalar tensor k
termination_by m - i

/-- One row of the collection stage: scan the columns from the cursor k with
scale zero and the zero tensor. -/
def rowScan (row : List Rat) (summands : List TensorExpr) (k : Nat) : RowOutcome :=
  rowScanGo row summands summands.length k 0 (.zero []) false k

/-- Insertion into the scale-keyed maps of the collection stage: coalesce
into an existing entry with the same scale, append a fresh entry otherwise. -/
def mapInsert (st : CollectState) (s : Rat) (t : TensorExpr) (k2 : Nat) : CollectState :=
  match st.scalars.findIdx? (fun x => x == s) with
  | some id =>
      ⟨k2, st.scalars, st.tensors.set id (TensorExpr.addT (st.tensors.getD id (.zero [])) t)⟩
  | none => ⟨k2, st.scalars ++ [s], st.tensors ++ [t]⟩

/-- Row loop of the collection stage; the abort of any row aborts the whole
collection. -/
def collectRows (summands : List TensorExpr) : List (List Rat) → CollectState → Option CollectState
  | [], st => some st
  | r :: rest, st =>
      match rowScan r summands st.k with
      | .abort => none
      | .term s t k2 => collectRows summands rest (mapInsert st s t k2)

/-- Rendering of the collected maps: result += scale * tensor over the map
entries, starting from the zero tensor. -/
def renderEntries (l : List (Rat × TensorExpr)) : TensorExpr :=
  l.foldl (fun acc e => TensorExpr.addT acc (TensorExpr.multiplyScalar e.2 e.1)) (.zero [])

/-- Basis-collection stage of Tensor.Simplify: walk min(rows, summands) rows
of the reduced component matrix with the persistent cursor, collect the
(scale, basis) pairs, coalesce equal scales and render; the abort branch of
the source returns the zero tensor as an ordinary value. -/
def simplifyCollect (rows : List (List Rat)) (summands : List TensorExpr) : TensorExpr :=
  let maxRows := min rows.length summands.length
  match collectRows summands (rows.take maxRows) ⟨0, [], []⟩ with
  | none => .zero []
  | some st => renderEntries (st.scalars.zip st.tensors)

/-- Name-routed positional arguments: each index of a summand reads the
declared argument at the position of its own name in the declared sequence. -/
def routeByName (own declared : List Index) (args : List Nat) : List Nat :=
  own.map (fun i => args.getD (posOfName declared i.name) 0)

/-- Specification-side form of AddedTensor.Evaluate: every summand evaluated
at the name-routed arguments, summed in order. -/
def addedSpecEval (summands : List TensorExpr) (declared : List Index) (args : List Nat) :
    Except TErr Rat :=
  (summands.mapM (fun t =>
    TensorExpr.evaluate t (routeByName (TensorExpr.getIndices t) declared args))).map
    (fun l => l.foldl (fun a b => a + b) 0)

/-- Specification-side routing for MultipliedTensor.Evaluate: an index of a
child reads the declared argument at the position of its name when it occurs
in the declared sequence, and the contraction tuple value at the position of
its name among the contracted indices otherwise. -/
def routeProduct (own contracted declared : List Index) (args tup : List Nat) : List Nat :=
  own.map (fun i =>
    if containsIndex declared i then args.getD (posOfName declared i.name) 0
    else tup.getD (posOfName contracted i.name) 0)

/-- Specification-side form of MultipliedTensor.Evaluate: the declared
arguments are routed to the two factors by index-name membership, the
contracted indices range over the Cartesian product of their ranges, and the
products of the factor evaluations are summed in combination order. -/
def multipliedSpecEval (A B : TensorExpr) (declared : List Index) (args : List Nat) :
    Except TErr Rat :=
  let contracted := (TensorExpr.getIndices A).filter (fun i => !(containsIndex declared i))
  ((getAllIndexCombinations contracted).mapM (fun tup => do
    let r1 ← TensorExpr.evaluate A
      (routeProduct (TensorExpr.getIndices A) contracted declared args tup)
    let r2 ← TensorExpr.evaluate B
      (routeProduct (TensorExpr.getIndices B) contracted declared args tup)
    pure (r1 * r2))).map (fun terms : List Rat => terms.foldl (fun a b => a + b) 0)

/-- Valid ranges: every inclusive range has its lower bound at most its upper
bound, hence at least one value. -/
def validRanges (l : List Index) : Bool := l.all (fun i => i.range.lo ≤ i.range.hi)

/-- Distinctness of the names of an index sequence. -/
def nodupNames (l : List Index) : Bool := decide ((l.map (fun i => i.name)).Nodup)

namespace TensorExpr

/-- Structural well-formedness sufficient for total evaluation: arity of the
rank-2 atoms, name coverage of Added summands and Substitute children, the
factory-built header of Multiplied nodes together with valid child ranges,
and the Scaled header invariant. -/
def wf : TensorExpr → Bool
  | .generic _ _ _ _ => true
  | .zero _ => true
  | .scalarT _ _ _ _ => true
  | .delta idx => idx.length == 2
  | .epsilonT _ => true
  | .gammaT idx _ _ => idx.length == 2
  | .epsilonGamma _ _ _ => true
  | .added s idx =>
      s.attach.all (fun st =>
        wf st.val && (getIndices st.val).all (fun i => containsName idx i.name))
  | .multiplied A B idx =>
      wf A && wf B && validRanges (getIndices A) &&
        decide (idx = contractIndices (getIndices A) (getIndices B))
  | .scaled A _ idx => wf A && decide (idx = getIndices A)
  | .substitute A idx =>
      wf A && (getIndices A).all (fun i => containsName idx i.name)
termination_by t => sizeOf t
decreasing_by
  all_goals simp_wf
  all_goals first
    | (have hm := List.sizeOf_lt_of_mem st.property; omega)
    | omega

end TensorExpr

/-- Concrete range fixture: the spatial range 1..3. -/
def r13 : IndexRange := ⟨1, 3⟩

/-- Concrete index fixture a. -/
def idxA : Index := ⟨"a", r13, false⟩

/-- Concrete index fixture b. -/
def idxB : Index := ⟨"b", r13, false⟩

/-- Concrete index fixture c. -/
def idxC : Index := ⟨"c", r13, false⟩

/-- Concrete index fixture d. -/
def idxD : Index := ⟨"d", r13, false⟩

/-- The contravariant copy of a that the delta constructor produces. -/
def idxAup : Index := ⟨"a", r13, true⟩

/-- Concrete gamma fixture with indices a b. -/
def gammaAB : TensorExpr := .gammaT [idxA, idxB] 0 3

/-- Concrete gamma fixture with indices b a. -/
def gammaBA : TensorExpr := .gammaT [idxB, idxA] 0 3

/-- Concrete gamma fixture with indices c d. -/
def gammaCD : TensorExpr := .gammaT [idxC, idxD] 0 3

/-- Concrete two-summand sum fixture gamma a b plus gamma b a. -/
def sumABBA : TensorExpr := .added [gammaAB, gammaBA] [idxA, idxB]

/-- C1: Canonicalize does not preserve components.  ScalarTensor has no
Canonicalize override, so the base implementation returns a sliced base-class
copy: on the scalar atom with value one the canonicalised tensor is the
header-only generic object, which evaluates to zero at the empty index
combination while the atom itself evaluates to one.  The claim (and the
specification, which states the intent) says Canonicalize preserves every
component and is the identity on Scalar atoms; the code violates it. -/
theorem claim1_canonicalize_slices_scalar :
    TensorExpr.canonicalize (.scalarT "1" "1" [] 1) = .generic "1" "1" [] 101 ∧
    TensorExpr.evaluate (TensorExpr.canonicalize (.scalarT "1" "1" [] 1)) [] = .ok 0 ∧
    TensorExpr.evaluate (.scalarT "1" "1" [] 1) [] = .ok 1 := by
  refine ⟨by simp [TensorExpr.canonicalize], ?_, by simp [TensorExpr.evaluate]⟩
  simp [TensorExpr.canonicalize, TensorExpr.evaluate]

/-- C2: the serialisation round trip fails on the Delta atom.  The Serialize
and Deserialize switches of the source have no case for the DELTA (and
EPSILON) tags, so a serialised delta deserialises to the generic header-only
placeholder, which evaluates to zero everywhere and is not IsEqual to the
delta (their components differ on the diagonal).  The claim (and the
specification, which states the intent) requires the round trip for every
supported variant. -/
theorem claim2_roundtrip_delta_fails :
    TensorExpr.serialize (TensorExpr.mkDelta [idxA, idxB]) =
      [Tok.str "", Tok.str "", Tok.idxs [idxAup, idxB], Tok.i32 204] ∧
    deserializeGo 1 (TensorExpr.serialize (TensorExpr.mkDelta [idxA, idxB])) =
      some (.generic "" "" [idxAup, idxB] (-1), []) ∧
    isEqual (.generic "" "" [idxAup, idxB] (-1)) (TensorExpr.mkDelta [idxA, idxB]) = false := by
  have hser : TensorExpr.serialize (TensorExpr.mkDelta [idxA, idxB]) =
      [Tok.str "", Tok.str "", Tok.idxs [idxAup, idxB], Tok.i32 204] := by
    simp [TensorExpr.serialize, TensorExpr.mkDelta, TensorExpr.nameOf, TensorExpr.printableOf,
      TensorExpr.getIndices, TensorExpr.typeTag, idxA, idxB, idxAup]
  refine ⟨hser, by rw [hser]; rfl, ?_⟩
  simp only [isEqual, TensorExpr.mkDelta, TensorExpr.getIndices, indicesEq, indexEq,
    getAllIndexCombinations, rangeValues, idxA, idxB, idxAup, r13]
  norm_num [List.all, exceptEq, TensorExpr.evaluate]

/-- C3: the Delta contraction heuristic.  When the covariant index b of the
delta occurs in the other tensor, Multiply returns the other tensor with its
indices set to the contraction, and the product evaluates at every argument
vector exactly as the tensor with a substituted for b (shown here on a gamma
with index b in second position).  But when no index is shared the heuristic
still fires, because the containsContractions flag computed by Multiply is
never consulted: the product of a delta with a disjoint gamma is the gamma
carrying the concatenated four-index header, not a Multiplied node.  The
claim (and the specification, which states the intent) says the hook yields
nothing in that case. -/
theorem claim3_delta_contraction :
    TensorExpr.multiplyT (TensorExpr.mkDelta [idxA, idxB]) (.gammaT [idxC, idxB] 1 3) =
      .gammaT [idxAup, idxC] 1 3 ∧
    (getAllIndexCombinations [idxAup, idxC]).all (fun v =>
      exceptEq
        (TensorExpr.evaluate
          (TensorExpr.multiplyT (TensorExpr.mkDelta [idxA, idxB]) (.gammaT [idxC, idxB] 1 3)) v)
        (TensorExpr.evaluate (.gammaT [idxC, idxAup] 1 3) v)) = true ∧
    TensorExpr.multiplyT (TensorExpr.mkDelta [idxA, idxB]) gammaCD =
      .gammaT [idxAup, ⟨"b", r13, false⟩, idxC, idxD] 0 3 := by
  have h1 : TensorExpr.multiplyT (TensorExpr.mkDelta [idxA, idxB]) (.gammaT [idxC, idxB] 1 3) =
      .gammaT [idxAup, idxC] 1 3 := by
    simp [TensorExpr.multiplyT, TensorExpr.contractionHeuristics, TensorExpr.mkDelta,
      TensorExpr.setIndices, contractIndices, containsName, TensorExpr.getIndices,
      idxA, idxB, idxC, idxAup]
  refine ⟨h1, ?_, ?_⟩
  · rw [h1]
    simp only [getAllIndexCombinations, rangeValues, idxAup, idxC, r13]
    norm_num [List.all, exceptEq, TensorExpr.evaluate, gammaComponents, wrapU32, idxAup, idxC, r13]
  · simp [TensorExpr.multiplyT, TensorExpr.contractionHeuristics, TensorExpr.mkDelta,
      TensorExpr.setIndices, contractIndices, containsName, TensorExpr.getIndices, gammaCD,
      idxA, idxB, idxC, idxD, idxAup]

/-- C7: the Add factory never raises the cannot-add error.  On two gammas
with disjoint (hence not permutation-equivalent) index sets, neither of them
the zero tensor, Add simply builds the two-summand Added node; the
CannotAddTensorsException is declared and documented on Add in the source
but no code path throws it.  The claim (and the doc comment of Add itself)
says the factory raises the error for non-permutation-equivalent index
sets. -/
theorem claim7_add_never_raises :
    TensorExpr.addT gammaAB gammaCD = .added [gammaAB, gammaCD] [idxA, idxB] ∧
    isPermutationOf [idxA, idxB] [idxC, idxD] = false ∧
    TensorExpr.isZeroTensor gammaAB = false ∧
    TensorExpr.isZeroTensor gammaCD = false := by
  refine ⟨?_, by decide, rfl, rfl⟩
  rfl

/-- C8 counterexample: when only the second operand is an Added node, the
result is not that Added node with the first operand pushed in.  On the sum
fixture, Add builds a nested two-summand node whose second summand is the
whole sum, which differs from both push-in forms (they have three
summands). -/
theorem claim8_counterexample :
    TensorExpr.addT gammaAB sumABBA = .added [gammaAB, sumABBA] [idxA, idxB] ∧
    TensorExpr.addT gammaAB sumABBA ≠ .added [gammaAB, gammaAB, gammaBA] [idxA, idxB] ∧
    TensorExpr.addT gammaAB sumABBA ≠ .added [gammaAB, gammaBA, gammaAB] [idxA, idxB] := by
  have h : TensorExpr.addT gammaAB sumABBA = .added [gammaAB, sumABBA] [idxA, idxB] := rfl
  refine ⟨h, ?_, ?_⟩ <;>
    · rw [h]
      intro hEq
      have hs := congrArg (fun t =>
        match t with
        | TensorExpr.added s _ => s.map TensorExpr.typeTag
        | _ => []) hEq
      simp [sumABBA, gammaAB, gammaBA, TensorExpr.typeTag] at hs

/-- C8 amended: if the first operand is an Added node and the second is not
(and is not the zero tensor), Add pushes the second operand into the first
as a new summand; if both operands are Added nodes, the result is one Added
node whose summand list is the concatenation of both lists; if only the
second operand is an Added node, the dead self-contradictory predicate of
the source never fires and Add builds a fresh two-summand node holding the
first operand and the whole second sum. -/
theorem claim8_add_added_cases :
    (∀ (s : List TensorExpr) (idx : List Index) (y : TensorExpr),
      TensorExpr.isAddedTensor y = false → TensorExpr.isZeroTensor y = false →
      TensorExpr.addT (.added s idx) y = .added (s ++ [y]) idx) ∧
    (∀ (s s2 : List TensorExpr) (idx idx2 : List Index),
      TensorExpr.addT (.added s idx) (.added s2 idx2) = .added (s ++ s2) idx) ∧
    (∀ (x : TensorExpr) (s2 : List TensorExpr) (idx2 : List Index),
      TensorExpr.isAddedTensor x = false → TensorExpr.isZeroTensor x = false →
      TensorExpr.addT x (.added s2 idx2) = .added [x, .added s2 idx2] (x.getIndices)) := by
  refine ⟨?_, ?_, ?_⟩
  · intro s idx y hAdd hZero
    have h1 : TensorExpr.isZeroTensor (.added s idx) = false := rfl
    have h2 : TensorExpr.isAddedTensor (.added s idx) = true := rfl
    simp [TensorExpr.addT, TensorExpr.addFromRight, h1, h2, hAdd, hZero]
  · intro s s2 idx idx2
    have h1 : TensorExpr.isZeroTensor (.added s idx) = false := rfl
    have h2 : TensorExpr.isAddedTensor (.added s idx) = true := rfl
    have h3 : TensorExpr.isZeroTensor (.added s2 idx2) = false := rfl
    have h4 : TensorExpr.isAddedTensor (.added s2 idx2) = true := rfl
    simp [TensorExpr.addT, TensorExpr.addMerge, h1, h2, h3, h4]
  · intro x s2 idx2 hAdd hZero
    have h3 : TensorExpr.isZeroTensor (.added s2 idx2) = false := rfl
    have h4 : TensorExpr.isAddedTensor (.added s2 idx2) = true := rfl
    simp [TensorExpr.addT, h3, h4, hAdd, hZero]

/-- C8 witness: the three amended cases at concrete inputs. -/
theorem claim8_add_added_cases_witness :
    TensorExpr.addT sumABBA gammaCD = .added [gammaAB, gammaBA, gammaCD] [idxA, idxB] ∧
    TensorExpr.addT sumABBA (.added [gammaCD] [idxC, idxD]) =
      .added [gammaAB, gammaBA, gammaCD] [idxA, idxB] ∧
    TensorExpr.addT gammaCD sumABBA = .added [gammaCD, sumABBA] [idxC, idxD] := by
  refine ⟨?_, ?_, ?_⟩
  · exact claim8_add_added_cases.1 [gammaAB, gammaBA] [idxA, idxB] gammaCD rfl rfl
  · exact claim8_add_added_cases.2.1 [gammaAB, gammaBA] [gammaCD] [idxA, idxB] [idxC, idxD]
  · exact claim8_add_added_cases.2.2 gammaCD [gammaAB, gammaBA] [idxA, idxB] rfl rfl

/-- C10 counterexample: dividing by a fraction with numerator zero produces
denominator zero, so the arithmetic operations do not maintain a strictly
positive denominator. -/
theorem claim10_counterexample :
    Fraction.div ⟨1, 1⟩ ⟨0, 1⟩ = ⟨1, 0⟩ ∧
    ¬ 0 < (Fraction.div ⟨1, 1⟩ ⟨0, 1⟩).den := by
  refine ⟨by decide, by decide⟩

/-- Positivity of the unsigned 32-bit wrap. -/
theorem wrapU32_pos_iff (x : Int) : 0 < wrapU32 x ↔ ¬ ((4294967296 : Int) ∣ x) := by
  have hd : (4294967296 : Int) ∣ x ↔ x % 4294967296 = 0 :=
    Int.dvd_iff_emod_eq_zero
  unfold wrapU32
  omega

/-- The signed wrap is the identity on small unsigned values. -/
theorem wrapI32_small (n : Nat) (h : n < 2147483648) : wrapI32 n = n := by
  unfold wrapI32
  omega

/-- C10 amended: the denominators produced by the arithmetic operations are
strictly positive exactly when the corresponding unsigned 32-bit product
does not wrap to zero (in particular division needs a divisor whose
numerator is nonzero), negation keeps the denominator, and Reduce divides
the numerator and the denominator by gcd of the absolute numerator and the
denominator, preserving positivity (stated for denominators in the int
range). -/
theorem claim10_fraction_invariants :
    (∀ f g : Fraction,
      (0 < (Fraction.add f g).den ↔ ¬ ((4294967296 : Int) ∣ (f.den : Int) * g.den)) ∧
      (0 < (Fraction.sub f g).den ↔ ¬ ((4294967296 : Int) ∣ (f.den : Int) * g.den)) ∧
      (0 < (Fraction.mul f g).den ↔ ¬ ((4294967296 : Int) ∣ (f.den : Int) * g.den)) ∧
      (0 < (Fraction.div f g).den ↔ ¬ ((4294967296 : Int) ∣ (f.den : Int) * g.num))) ∧
    (∀ f : Fraction, (Fraction.neg f).den = f.den) ∧
    (∀ f : Fraction, f.den < 2147483648 →
      Fraction.reduce f =
        ⟨Int.tdiv f.num (Nat.gcd f.num.natAbs f.den : Int),
         f.den / Nat.gcd f.num.natAbs f.den⟩ ∧
      (0 < f.den → 0 < (Fraction.reduce f).den)) := by
  refine ⟨?_, fun f => rfl, ?_⟩
  · intro f g
    refine ⟨?_, ?_, ?_, ?_⟩ <;>
      · simp only [Fraction.add, Fraction.sub, Fraction.mul, Fraction.div]
        exact wrapU32_pos_iff _
  · intro f hf
    have hwrap : wrapI32 f.den = f.den := wrapI32_small f.den hf
    have hred : Fraction.reduce f =
        ⟨Int.tdiv f.num (Nat.gcd f.num.natAbs f.den : Int),
         f.den / Nat.gcd f.num.natAbs f.den⟩ := by
      unfold Fraction.reduce Fraction.gcdInts
      rw [hwrap]
      simp
    refine ⟨hred, fun hpos => ?_⟩
    rw [hred]
    have hg0 : Nat.gcd f.num.natAbs f.den ≠ 0 := by
      intro h
      exact absurd (Nat.eq_zero_of_gcd_eq_zero_right h) (by omega)
    exact Nat.div_pos (Nat.le_of_dvd hpos (Nat.gcd_dvd_right _ _)) (Nat.pos_of_ne_zero hg0)

/-- C10 witness: the amended statement applied at concrete fractions. -/
theorem claim10_fraction_invariants_witness :
    0 < (Fraction.add ⟨1, 2⟩ ⟨1, 3⟩).den ∧
    Fraction.reduce ⟨6, 4⟩ = ⟨3, 2⟩ ∧ 0 < (Fraction.reduce ⟨6, 4⟩).den := by
  refine ⟨((claim10_fraction_invariants.1 ⟨1, 2⟩ ⟨1, 3⟩).1).mpr (by norm_num), ?_, ?_⟩
  · have h := ((claim10_fraction_invariants.2.2 ⟨6, 4⟩ (by norm_num)).1)
    rw [h]
    decide
  · exact (claim10_fraction_invariants.2.2 ⟨6, 4⟩ (by norm_num)).2 (by norm_num)

/-- A zero scale collapses Multiply to the zero tensor. -/
theorem multiplyScalar_zero (t : TensorExpr) : TensorExpr.multiplyScalar t 0 = .zero [] := by
  unfold TensorExpr.multiplyScalar
  norm_num [beq_iff_eq]

/-- Multiply by a nonzero scale never yields a zero-tagged node when the
tensor is not zero-tagged. -/
theorem isZero_multiplyScalar (t : TensorExpr) (c : Rat) (hc : c ≠ 0)
    (ht : TensorExpr.isZeroTensor t = false) :
    TensorExpr.isZeroTensor (TensorExpr.multiplyScalar t c) = false := by
  unfold TensorExpr.multiplyScalar
  by_cases h1 : c == 1
  · simpa [h1] using ht
  · have h0 : (c == 0) = false := by simp [hc]
    simp only [h1, h0, ht, Bool.false_eq_true, if_false]
    match t with
    | .generic _ _ _ _ => rfl
    | .scalarT _ _ _ _ => rfl
    | .delta _ => rfl
    | .epsilonT _ => rfl
    | .gammaT _ _ _ => rfl
    | .epsilonGamma _ _ _ => rfl
    | .added _ _ => rfl
    | .multiplied _ _ _ => rfl
    | .scaled _ _ _ => rfl
    | .substitute _ _ => rfl
    | .zero _ => simp [TensorExpr.isZeroTensor, TensorExpr.typeTag] at ht

/-- Adding a node that is not zero-tagged never yields a zero-tagged node. -/
theorem isZero_addT (acc x : TensorExpr) (hx : TensorExpr.isZeroTensor x = false) :
    TensorExpr.isZeroTensor (TensorExpr.addT acc x) = false := by
  unfold TensorExpr.addT
  by_cases hz : TensorExpr.isZeroTensor acc
  · simpa [hz] using hx
  · simp only [hz, hx, Bool.false_eq_true, if_false, Bool.and_not_self]
    by_cases ha : TensorExpr.isAddedTensor acc
    · simp only [ha, Bool.true_and, Bool.not_eq_eq_eq_not, Bool.not_true, Bool.false_eq_true]
      by_cases hax : TensorExpr.isAddedTensor x
      · simp only [hax, if_true, if_false, Bool.not_true]
        unfold TensorExpr.addMerge
        match acc, x with
        | .added _ _, .added _ _ => rfl
        | .added _ _, .generic _ _ _ _ => rfl
        | .added _ _, .zero _ => rfl
        | .added _ _, .scalarT _ _ _ _ => rfl
        | .added _ _, .delta _ => rfl
        | .added _ _, .epsilonT _ => rfl
        | .added _ _, .gammaT _ _ _ => rfl
        | .added _ _, .epsilonGamma _ _ _ => rfl
        | .added _ _, .multiplied _ _ _ => rfl
        | .added _ _, .scaled _ _ _ => rfl
        | .added _ _, .substitute _ _ => rfl
        | .generic _ _ _ _, _ => rfl
        | .zero _, _ => rfl
        | .scalarT _ _ _ _, _ => rfl
        | .delta _, _ => rfl
        | .epsilonT _, _ => rfl
        | .gammaT _ _ _, _ => rfl
        | .epsilonGamma _ _ _, _ => rfl
        | .multiplied _ _ _, _ => rfl
        | .scaled _ _ _, _ => rfl
        | .substitute _ _, _ => rfl
      · simp only [hax, Bool.not_false, if_true, Bool.and_true, Bool.and_false, if_false]
        unfold TensorExpr.addFromRight
        match acc with
        | .added _ _ => rfl
        | .generic _ _ _ _ => rfl
        | .zero _ => rfl
        | .scalarT _ _ _ _ => rfl
        | .delta _ => rfl
        | .epsilonT _ => rfl
        | .gammaT _ _ _ => rfl
        | .epsilonGamma _ _ _ => rfl
        | .multiplied _ _ _ => rfl
        | .scaled _ _ _ => rfl
        | .substitute _ _ => rfl
    · simp only [ha, Bool.false_and, if_false]
      rfl

/-- Adding the bare zero tensor is the identity on accumulators that are
honestly zero or not zero-tagged. -/
theorem addT_zeroNode (acc : TensorExpr)
    (hinv : TensorExpr.isZeroTensor acc = true → acc = .zero []) :
    TensorExpr.addT acc (.zero []) = acc := by
  by_cases hz : TensorExpr.isZeroTensor acc
  · rw [hinv hz]
    rfl
  · have hz2 : TensorExpr.isZeroTensor acc = false := by
      cases h : TensorExpr.isZeroTensor acc with
      | true => exact absurd h hz
      | false => rfl
    unfold TensorExpr.addT
    rw [hz2]
    simp [TensorExpr.isZeroTensor, TensorExpr.typeTag]

/-- Map entries with scale zero contribute nothing to the rendered result. -/
theorem renderFold_filter :
    ∀ (l : List (Rat × TensorExpr)) (acc : TensorExpr),
      (TensorExpr.isZeroTensor acc = true → acc = .zero []) →
      (∀ e ∈ l, e.1 ≠ 0 → TensorExpr.isZeroTensor e.2 = false) →
      l.foldl (fun a e => TensorExpr.addT a (TensorExpr.multiplyScalar e.2 e.1)) acc =
      (l.filter (fun e => decide (e.1 ≠ 0))).foldl
        (fun a e => TensorExpr.addT a (TensorExpr.multiplyScalar e.2 e.1)) acc := by
  intro l
  induction l with
  | nil => intro acc _ _; rfl
  | cons e rest ih =>
      intro acc hinv hb
      by_cases he : e.1 = 0
      · have hstep : TensorExpr.addT acc (TensorExpr.multiplyScalar e.2 e.1) = acc := by
          rw [he, multiplyScalar_zero, addT_zeroNode acc hinv]
        have hfilter : (e :: rest).filter (fun x => decide (x.1 ≠ 0)) =
            rest.filter (fun x => decide (x.1 ≠ 0)) := by
          simp [List.filter_cons, he]
        rw [List.foldl_cons, hstep, hfilter]
        exact ih acc hinv (fun x hx hx0 => hb x (List.mem_cons_of_mem e hx) hx0)
      · have hx : TensorExpr.isZeroTensor (TensorExpr.multiplyScalar e.2 e.1) = false :=
          isZero_multiplyScalar e.2 e.1 he (hb e (List.mem_cons_self e rest) he)
        have hacc2 :
            TensorExpr.isZeroTensor
              (TensorExpr.addT acc (TensorExpr.multiplyScalar e.2 e.1)) = false :=
          isZero_addT acc _ hx
        have hfilter : (e :: rest).filter (fun x => decide (x.1 ≠ 0)) =
            e :: rest.filter (fun x => decide (x.1 ≠ 0)) := by
          simp [List.filter_cons, he]
        rw [List.foldl_cons, hfilter, List.foldl_cons]
        exact ih _ (fun h => absurd h (by rw [hacc2]; exact Bool.false_ne_true))
          (fun x hx2 hx0 => hb x (List.mem_cons_of_mem e hx2) hx0)

/-- An all-zero row is scanned to scale zero, the zero tensor and an
unchanged cursor. -/
theorem rowScanGo_zeroRow (row : List Rat) (S : List TensorExpr) (m : Nat) :
    ∀ fuel i k, m - i ≤ fuel → (∀ j, i ≤ j → j < m → row.getD j 0 = 0) →
      rowScanGo row S m i 0 (.zero []) false k = RowOutcome.term 0 (.zero []) k := by
  intro fuel
  induction fuel with
  | zero =>
      intro i k hf _
      unfold rowScanGo
      have hi : ¬ i < m := by omega
      simp [hi]
  | succ n ih =>
      intro i k hf hz
      unfold rowScanGo
      by_cases hi : i < m
      · have h0 : row.getD i 0 = 0 := hz i (le_refl i) hi
        rw [if_pos hi]
        simp only [h0]
        norm_num
        exact ih (i + 1) k (by omega) (fun j hj1 hj2 => hz j (by omega) hj2)
      · simp [hi]

/-- A leading entry at the cursor that is neither zero nor one, before the
last column, hits the SOMETHING WENT WRONG branch. -/
theorem rowScanGo_abort (row : List Rat) (S : List TensorExpr) (m k : Nat)
    (hk : k < m) (h0 : row.getD k 0 ≠ 0) (h1 : row.getD k 0 ≠ 1) (hlast : k ≠ m - 1) :
    rowScanGo row S m k 0 (.zero []) false k = RowOutcome.abort := by
  unfold rowScanGo
  rw [if_pos hk]
  have h0b : ¬ row[k]?.getD 0 = 0 := by simpa using h0
  have h1b : ¬ row[k]?.getD 0 = 1 := by simpa using h1
  simp [h0b, h1b, hlast]

/-- C9 counterexample: a malformed reduced matrix whose first row has the
non-unit leading coefficient two makes Simplify return the zero tensor as an
ordinary value; an all-zero matrix returns the same zero tensor, so the
caller cannot observe any internal failure, contradicting the claim that the
condition is reported. -/
theorem claim9_counterexample :
    simplifyCollect [[2, 0]] [gammaAB, gammaBA] = .zero [] ∧
    simplifyCollect [[0, 0]] [gammaAB, gammaBA] = .zero [] := by
  constructor
  · have habort : rowScan [2, 0] [gammaAB, gammaBA] 0 = RowOutcome.abort := by
      have := rowScanGo_abort [2, 0] [gammaAB, gammaBA] 2 0 (by norm_num)
        (by norm_num) (by norm_num) (by norm_num)
      simpa [rowScan] using this
    simp [simplifyCollect, collectRows, habort]
  · have hterm : rowScan [0, 0] [gammaAB, gammaBA] 0 = RowOutcome.term 0 (.zero []) 0 := by
      have := rowScanGo_zeroRow [0, 0] [gammaAB, gammaBA] 2 2 0 0 (by omega) ?_
      · simpa [rowScan] using this
      · intro j hj1 hj2
        interval_cases j <;> norm_num
    simp [simplifyCollect, collectRows, hterm, mapInsert, renderEntries,
      List.findIdx?, multiplyScalar_zero]
    rfl

/-- C9 amended: in the basis-collection stage of Simplify, a row of the
reduced component matrix whose scanned entries are all zero yields scale
zero and the zero tensor with an unchanged cursor, and zero-scale map
entries render into no term of the result; a non-unit leading coefficient
where a unit pivot was expected (at the cursor, before the last column)
aborts the collection and Simplify silently returns the zero tensor as an
ordinary value, with no failure reported to the caller. -/
theorem claim9_collection_edge_behaviour :
    (∀ (row : List Rat) (S : List TensorExpr) (k : Nat),
      (∀ j, j < S.length → row.getD j 0 = 0) →
      rowScan row S k = RowOutcome.term 0 (.zero []) k) ∧
    (∀ l : List (Rat × TensorExpr),
      (∀ e ∈ l, e.1 ≠ 0 → TensorExpr.isZeroTensor e.2 = false) →
      renderEntries l = renderEntries (l.filter (fun e => decide (e.1 ≠ 0)))) ∧
    (∀ (row : List Rat) (rest : List (List Rat)) (S : List TensorExpr),
      row.getD 0 0 ≠ 0 → row.getD 0 0 ≠ 1 → 1 < S.length →
      simplifyCollect (row :: rest) S = .zero []) := by
  refine ⟨?_, ?_, ?_⟩
  · intro row S k hz
    unfold rowScan
    exact rowScanGo_zeroRow row S S.length (S.length - k) k k (by omega)
      (fun j _ hj2 => hz j hj2)
  · intro l hb
    unfold renderEntries
    exact renderFold_filter l (.zero []) (fun _ => rfl) hb
  · intro row rest S hr0 hr1 hS
    have habort : rowScan row S 0 = RowOutcome.abort := by
      unfold rowScan
      exact rowScanGo_abort row S S.length 0 (by omega) hr0 hr1 (by omega)
    have hmin : 0 < min (row :: rest).length S.length := by
      simp
      omega
    have htake : ((row :: rest).take (min (row :: rest).length S.length)) =
        row :: (rest.take (min (row :: rest).length S.length - 1)) := by
      match hm : min (row :: rest).length S.length with
      | 0 => omega
      | n + 1 => simp [List.take_succ_cons]
    have hcoll : ∀ X, collectRows S (row :: X) ⟨0, [], []⟩ = none := by
      intro X
      show (match rowScan row S 0 with
        | RowOutcome.abort => none
        | RowOutcome.term s t k2 =>
            collectRows S X (mapInsert ⟨0, [], []⟩ s t k2)) = none
      rw [habort]
    simp only [simplifyCollect]
    rw [htake, hcoll]

/-- C9 witness: the amended statement applied at concrete inputs. -/
theorem claim9_collection_edge_behaviour_witness :
    rowScan [0, 0] [gammaAB, gammaBA] 0 = RowOutcome.term 0 (.zero []) 0 ∧
    renderEntries [((0 : Rat), TensorExpr.zero [])] =
      renderEntries ([((0 : Rat), TensorExpr.zero [])].filter (fun e => decide (e.1 ≠ 0))) ∧
    simplifyCollect [[2, 0]] [gammaAB, gammaBA] = .zero [] := by
  refine ⟨?_, ?_, ?_⟩
  · refine claim9_collection_edge_behaviour.1 [0, 0] [gammaAB, gammaBA] 0 ?_
    intro j hj
    simp at hj
    interval_cases j <;> norm_num
  · refine claim9_collection_edge_behaviour.2.1 [((0 : Rat), TensorExpr.zero [])] ?_
    intro e he h0
    simp only [List.mem_singleton] at he
    rw [he] at h0
    simp at h0
  · exact claim9_collection_edge_behaviour.2.2 [2, 0] [] [gammaAB, gammaBA]
      (by norm_num) (by norm_num) (by norm_num)

/-- The inner epsilon loop as a product over positions. -/
theorem epsRow_ofFn (x : Int) :
    ∀ (m : ℕ) (w : Fin m → Nat) (d : ℕ),
      epsRow x (List.ofFn w) d =
        Finset.prod Finset.univ (fun j : Fin m =>
          (((w j : Int) - x : Int) : Rat) / ((d + (j : ℕ) : ℕ) : Rat)) := by
  intro m
  induction m with
  | zero => intro w d; simp [epsRow]
  | succ m ih =>
      intro w d
      rw [List.ofFn_succ]
      show (((w 0 : Int) - x : Int) : Rat) / (d : Rat) *
          epsRow x (List.ofFn (fun i => w i.succ)) (d + 1) = _
      rw [ih (fun i => w i.succ) (d + 1), Fin.prod_univ_succ]
      have hd : ((d + ((0 : Fin (m + 1)) : ℕ) : ℕ) : Rat) = (d : Rat) := by norm_num
      rw [hd]
      congr 1
      apply Finset.prod_congr rfl
      intro j _
      have : (d + ((j.succ : Fin (m + 1)) : ℕ) : ℕ) = (d + 1 + (j : ℕ) : ℕ) := by
        simp [Fin.val_succ]
        omega
      rw [this]

/-- The epsilon double loop as the double product over index pairs. -/
theorem epsAll_ofFn :
    ∀ (n : ℕ) (u : Fin n → Nat),
      epsAll (List.ofFn u) =
        Finset.prod Finset.univ (fun i : Fin n =>
          Finset.prod (Finset.Ioi i) (fun j =>
            (((u j : Int) - (u i : Int) : Int) : Rat) / (((j : ℕ) - (i : ℕ) : ℕ) : Rat))) := by
  intro n
  induction n with
  | zero => intro u; simp [epsAll]
  | succ n ih =>
      intro u
      rw [List.ofFn_succ]
      show epsRow ((u 0 : Nat) : Int) (List.ofFn (fun i => u i.succ)) 1 *
          epsAll (List.ofFn (fun i => u i.succ)) = _
      rw [ih (fun i => u i.succ), epsRow_ofFn, Fin.prod_univ_succ]
      congr 1
      · rw [Fin.prod_Ioi_zero]
        apply Finset.prod_congr rfl
        intro j _
        have : ((j.succ : Fin (n + 1)) : ℕ) - ((0 : Fin (n + 1)) : ℕ) = 1 + (j : ℕ) := by
          simp [Fin.val_succ]
          omega
        rw [this]
      · apply Finset.prod_congr rfl
        intro i _
        rw [Fin.prod_Ioi_succ]
        apply Finset.prod_congr rfl
        intro j _
        have : ((j.succ : Fin (n + 1)) : ℕ) - ((i.succ : Fin (n + 1)) : ℕ) =
            (j : ℕ) - (i : ℕ) := by
          simp [Fin.val_succ]
        rw [this]

/-- The pair products of consecutive position differences do not vanish. -/
theorem epsDen_ne_zero (n : ℕ) :
    Finset.prod Finset.univ (fun i : Fin n =>
      Finset.prod (Finset.Ioi i) (fun j => (((j : ℕ) : Rat) - ((i : ℕ) : Rat)))) ≠ 0 := by
  apply Finset.prod_ne_zero_iff.mpr
  intro i _
  apply Finset.prod_ne_zero_iff.mpr
  intro j hj
  have hij : i < j := Finset.mem_Ioi.mp hj
  have : ((i : ℕ) : Rat) < ((j : ℕ) : Rat) := by exact_mod_cast hij
  exact sub_ne_zero_of_ne (ne_of_gt this)

/-- The Vandermonde factorisation of the epsilon closed form: on the
argument vector lo + sigma of a permutation sigma of the index positions,
the closed form evaluates exactly to the sign of sigma. -/
theorem epsilonComponents_perm_sign (n lo : ℕ) (σ : Equiv.Perm (Fin n)) :
    epsilonComponents (List.ofFn (fun i => lo + σ i)) = ((Equiv.Perm.sign σ : ℤ) : Rat) := by
  unfold epsilonComponents
  rw [epsAll_ofFn n (fun i => lo + σ i)]
  have hfactor : ∀ (i j : Fin n), j ∈ Finset.Ioi i →
      ((((lo + σ j : Nat) : Int) - ((lo + σ i : Nat) : Int) : Int) : Rat) /
        (((j : ℕ) - (i : ℕ) : ℕ) : Rat) =
      (((σ j : ℕ) : Rat) - ((σ i : ℕ) : Rat)) / (((j : ℕ) : Rat) - ((i : ℕ) : Rat)) := by
    intro i j hj
    have hij : i < j := Finset.mem_Ioi.mp hj
    have hle : (i : ℕ) ≤ (j : ℕ) := le_of_lt hij
    have hnum : ((((lo + σ j : Nat) : Int) - ((lo + σ i : Nat) : Int) : Int) : Rat) =
        ((σ j : ℕ) : Rat) - ((σ i : ℕ) : Rat) := by push_cast; ring
    have hden : (((j : ℕ) - (i : ℕ) : ℕ) : Rat) = ((j : ℕ) : Rat) - ((i : ℕ) : Rat) :=
      Nat.cast_sub hle
    rw [hnum, hden]
  rw [Finset.prod_congr rfl (fun i _ => Finset.prod_congr rfl (hfactor i))]
  have hsplit :
      Finset.prod Finset.univ (fun i : Fin n =>
        Finset.prod (Finset.Ioi i) (fun j =>
          (((σ j : ℕ) : Rat) - ((σ i : ℕ) : Rat)) / (((j : ℕ) : Rat) - ((i : ℕ) : Rat)))) =
      (Finset.prod Finset.univ (fun i : Fin n =>
        Finset.prod (Finset.Ioi i) (fun j => (((σ j : ℕ) : Rat) - ((σ i : ℕ) : Rat))))) /
      (Finset.prod Finset.univ (fun i : Fin n =>
        Finset.prod (Finset.Ioi i) (fun j => (((j : ℕ) : Rat) - ((i : ℕ) : Rat))))) := by
    rw [← Finset.prod_div_distrib]
    apply Finset.prod_congr rfl
    intro i _
    rw [← Finset.prod_div_distrib]
  rw [hsplit]
  have hv : (fun i : Fin n => ((σ i : ℕ) : Rat)) = (fun i : Fin n => ((i : ℕ) : Rat)) ∘ σ :=
    rfl
  have hnum2 :
      Finset.prod Finset.univ (fun i : Fin n =>
        Finset.prod (Finset.Ioi i) (fun j => (((σ j : ℕ) : Rat) - ((σ i : ℕ) : Rat)))) =
      ((Equiv.Perm.sign σ : ℤ) : Rat) *
      Finset.prod Finset.univ (fun i : Fin n =>
        Finset.prod (Finset.Ioi i) (fun j => (((j : ℕ) : Rat) - ((i : ℕ) : Rat)))) := by
    have h1 := Matrix.det_vandermonde (fun i : Fin n => ((σ i : ℕ) : Rat))
    have h2 := Matrix.det_vandermonde (fun i : Fin n => ((i : ℕ) : Rat))
    have h3 : Matrix.vandermonde (fun i : Fin n => ((σ i : ℕ) : Rat)) =
        (Matrix.vandermonde (fun i : Fin n => ((i : ℕ) : Rat))).submatrix σ id := by
      ext i j
      simp [Matrix.vandermonde_apply, Matrix.submatrix_apply]
    have h4 := Matrix.det_permute σ (Matrix.vandermonde (fun i : Fin n => ((i : ℕ) : Rat)))
    rw [← h1, h3, h4, h2]
  rw [hnum2, mul_div_assoc, div_self (epsDen_ne_zero n), mul_one]

/-- A collision of two argument values annihilates the epsilon closed form. -/
theorem epsilonComponents_zero_of_collision (args : List Nat) (p q : ℕ)
    (hp : p < args.length) (hq : q < args.length) (hpq : p < q)
    (heq : args.get ⟨p, hp⟩ = args.get ⟨q, hq⟩) :
    epsilonComponents args = 0 := by
  unfold epsilonComponents
  have hofn : args = List.ofFn args.get := (List.ofFn_get args).symm
  rw [hofn, epsAll_ofFn]
  apply Finset.prod_eq_zero (Finset.mem_univ (⟨p, hp⟩ : Fin args.length))
  apply Finset.prod_eq_zero (i := (⟨q, hq⟩ : Fin args.length))
  · exact Finset.mem_Ioi.mpr (by exact Fin.mk_lt_mk.mpr hpq)
  · rw [heq]
    simp

/-- C6: the Epsilon atom evaluates through the closed form, the closed form
is the product over pairs computed by the double loop, it is exactly the
sign of the permutation on any argument vector that permutes the index
range, it vanishes whenever two argument values coincide, and on the range
1..3 the concrete scenario values hold. -/
theorem claim6_epsilon_components :
    (∀ (idx : List Index) (args : List Nat),
      TensorExpr.evaluate (.epsilonT idx) args = .ok (epsilonComponents args)) ∧
    (∀ (n lo : ℕ) (σ : Equiv.Perm (Fin n)),
      epsilonComponents (List.ofFn (fun i => lo + σ i)) = ((Equiv.Perm.sign σ : ℤ) : Rat)) ∧
    (∀ (args : List Nat) (p q : ℕ) (hp : p < args.length) (hq : q < args.length),
      p < q → args.get ⟨p, hp⟩ = args.get ⟨q, hq⟩ → epsilonComponents args = 0) ∧
    epsilonComponents [1, 2, 3] = 1 ∧ epsilonComponents [2, 1, 3] = -1 ∧
    epsilonComponents [1, 1, 3] = 0 ∧ epsilonComponents [3, 1, 2] = 1 := by
  refine ⟨?_, epsilonComponents_perm_sign, epsilonComponents_zero_of_collision, ?_, ?_, ?_, ?_⟩
  · intro idx args
    simp [TensorExpr.evaluate]
  all_goals norm_num [epsilonComponents, epsAll, epsRow]

/-- C6 witness: the epsilon laws applied at concrete inputs. -/
theorem claim6_epsilon_components_witness :
    TensorExpr.evaluate (.epsilonT [idxA, idxB, idxC]) [1, 2, 3] =
      .ok (epsilonComponents [1, 2, 3]) ∧
    epsilonComponents (List.ofFn (fun i : Fin 3 => 1 + (1 : Equiv.Perm (Fin 3)) i)) =
      ((Equiv.Perm.sign (1 : Equiv.Perm (Fin 3)) : ℤ) : Rat) ∧
    epsilonComponents [1, 1, 3] = 0 := by
  refine ⟨claim6_epsilon_components.1 [idxA, idxB, idxC] [1, 2, 3], ?_, ?_⟩
  · exact claim6_epsilon_components.2.1 3 1 1
  · exact claim6_epsilon_components.2.2.1 [1, 1, 3] 0 1 (by norm_num) (by norm_num)
      (by norm_num) rfl

/-- Find after replacing the entry of a present name. -/
theorem find_replace_pos : ∀ (a : List (String × Nat)) (n : String) (v : Nat),
    (List.any a (fun p => p.1 == n)) = true →
    List.find? (fun p => p.1 == n) (List.map (fun p => if p.1 == n then (n, v) else p) a) =
      some (n, v) := by
  intro a n v h
  induction a with
  | nil => simp at h
  | cons p rest ih =>
      rw [List.map_cons]
      cases hp : (p.1 == n) with
      | true =>
          rw [if_pos rfl, List.find?_cons]
          simp
      | false =>
          rw [if_neg (by simp), List.find?_cons]
          simp only [hp]
          apply ih
          simp only [List.any_cons, hp, Bool.false_or] at h
          exact h

/-- Find of another name is unchanged by replacing the entry of a name. -/
theorem find_replace_other : ∀ (a : List (String × Nat)) (n : String) (v : Nat) (m : String),
    m ≠ n →
    List.find? (fun p => p.1 == m) (List.map (fun p => if p.1 == n then (n, v) else p) a) =
      List.find? (fun p => p.1 == m) a := by
  intro a n v m hmn
  induction a with
  | nil => rfl
  | cons p rest ih =>
      rw [List.map_cons]
      cases hp : (p.1 == n) with
      | true =>
          have hp1 : p.1 = n := by simpa using hp
          have hpm : (p.1 == m) = false := by
            rw [hp1]
            simp only [beq_eq_false_iff_ne, ne_eq]
            intro hc
            exact hmn hc.symm
          have hnm : ((n, v).1 == m) = false := by
            simp only [beq_eq_false_iff_ne, ne_eq]
            intro hc
            exact hmn hc.symm
          rw [if_pos rfl, List.find?_cons, List.find?_cons]
          simp only [hpm, hnm]
          exact ih
      | false =>
          rw [if_neg (by simp), List.find?_cons, List.find?_cons]
          cases hm : (p.1 == m) with
          | true => rfl
          | false => exact ih

/-- Lookup after a map write: the written name reads the new value, other
names are unchanged. -/
theorem assignFind_assignSet (a : IndexAssignments) (n : String) (v : Nat) (m : String) :
    assignFind (assignSet a n v) m = if m = n then some v else assignFind a m := by
  unfold assignSet assignFind
  by_cases hmem : (List.any a (fun p => p.1 == n)) = true
  · rw [if_pos hmem]
    by_cases hm : m = n
    · subst hm
      rw [find_replace_pos a m v hmem]
      simp
    · rw [find_replace_other a n v m hm, if_neg hm]
  · rw [if_neg hmem]
    by_cases hm : m = n
    · subst hm
      have hnone : List.find? (fun p => p.1 == m) a = none := by
        rw [List.find?_eq_none]
        intro p hp
        intro hcon
        exact hmem (List.any_eq_true.mpr ⟨p, hp, hcon⟩)
      rw [List.append_eq, List.find?_append, hnone]
      simp
    · rw [List.append_eq, List.find?_append]
      cases hfind : List.find? (fun p => p.1 == m) a with
      | some p => simp [hfind, hm]
      | none =>
          have hnv : ((n, v).1 == m) = false := by simpa using Ne.symm hm
          simp [List.find?, hnv, hm]

/-- A plain write fold leaves names it never writes unchanged. -/
theorem assignFind_foldPlain_preserve :
    ∀ (ps : List (Index × Nat)) (base : IndexAssignments) (n : String),
      (∀ p ∈ ps, p.1.name ≠ n) →
      assignFind (ps.foldl (fun m p => assignSet m p.1.name p.2) base) n = assignFind base n := by
  intro ps
  induction ps with
  | nil => intro base n _; rfl
  | cons p rest ih =>
      intro base n h
      rw [List.foldl_cons, ih _ n (fun q hq => h q (List.mem_cons_of_mem p hq)),
        assignFind_assignSet]
      rw [if_neg (fun hc => h p (List.mem_cons_self p rest) hc.symm)]

/-- A conditional write fold leaves names it never writes unchanged. -/
theorem assignFind_foldCond_preserve :
    ∀ (ps : List (Index × Nat)) (base : IndexAssignments) (cond : Index → Bool) (n : String),
      (∀ p ∈ ps, p.1.name ≠ n) →
      assignFind (ps.foldl
        (fun m p => if cond p.1 then assignSet m p.1.name p.2 else m) base) n =
        assignFind base n := by
  intro ps
  induction ps with
  | nil => intro base cond n _; rfl
  | cons p rest ih =>
      intro base cond n h
      rw [List.foldl_cons, ih _ cond n (fun q hq => h q (List.mem_cons_of_mem p hq))]
      by_cases hc : cond p.1
      · rw [if_pos hc, assignFind_assignSet,
          if_neg (fun hcon => h p (List.mem_cons_self p rest) hcon.symm)]
      · rw [if_neg hc]

/-- Position and name of the first index carrying a present name. -/
theorem posOfName_spec (l : List Index) (n : String) (h : containsName l n = true) :
    posOfName l n < l.length ∧ (l.getD (posOfName l n) default).name = n := by
  induction l with
  | nil => simp [containsName] at h
  | cons i rest ih =>
      by_cases hi : (i.name == n) = true
      · constructor
        · simp [posOfName, List.findIdx_cons, hi]
        · simp only [posOfName, List.findIdx_cons, hi, cond_true]
          simpa using hi
      · have hrest : containsName rest n = true := by
          simp only [containsName, List.any_cons, hi, Bool.false_or] at h
          exact h
        have := ih hrest
        constructor
        · simp only [posOfName, List.findIdx_cons, hi, cond_false]
          simp only [posOfName] at this
          simp only [List.length_cons]
          omega
        · simp only [posOfName, List.findIdx_cons, hi, cond_false]
          simp only [posOfName] at this
          simpa using this.2

/-- The precise value written by the plain fold of index-value pairs: under
distinct names, a present name reads the value at its position. -/
theorem assignFind_foldPlain_precise :
    ∀ (l : List Index) (vals : List Nat) (base : IndexAssignments) (n : String),
      nodupNames l = true → vals.length = l.length → containsName l n = true →
      assignFind ((l.zip vals).foldl (fun m p => assignSet m p.1.name p.2) base) n =
        some (vals.getD (posOfName l n) 0) := by
  intro l
  induction l with
  | nil => intro vals base n _ _ h; simp [containsName] at h
  | cons i rest ih =>
      intro vals base n hnod hlen h
      match vals with
      | [] => simp at hlen
      | v :: vals' =>
          rw [List.zip_cons_cons, List.foldl_cons]
          by_cases hi : (i.name == n) = true
          · have hin : i.name = n := by simpa using hi
            have hnone : ∀ p ∈ rest.zip vals', p.1.name ≠ n := by
              intro p hp hcon
              obtain ⟨x, w⟩ := p
              have hmem : x ∈ rest := (List.of_mem_zip hp).1
              have : i.name ∈ rest.map (fun j => j.name) := by
                rw [hin, ← hcon]
                exact List.mem_map_of_mem _ hmem
              simp only [nodupNames, List.map_cons, decide_eq_true_eq] at hnod
              exact (List.nodup_cons.mp hnod).1 this
            rw [assignFind_foldPlain_preserve _ _ _ hnone, assignFind_assignSet,
              if_pos hin.symm]
            simp [posOfName, List.findIdx_cons, hi]
          · have hrest : containsName rest n = true := by
              simp only [containsName, List.any_cons, hi, Bool.false_or] at h
              exact h
            have hnod' : nodupNames rest = true := by
              simp only [nodupNames, List.map_cons, decide_eq_true_eq] at hnod
              simp only [nodupNames, decide_eq_true_eq]
              exact (List.nodup_cons.mp hnod).2
            rw [ih vals' _ n hnod' (by simpa using hlen) hrest]
            simp [posOfName, List.findIdx_cons, hi]

/-- The precise value written by the conditional fold of index-value pairs:
under distinct names, a present name whose index passes the condition reads
the value at its position. -/
theorem assignFind_foldCond_precise :
    ∀ (l : List Index) (vals : List Nat) (base : IndexAssignments) (cond : Index → Bool)
      (n : String),
      nodupNames l = true → vals.length = l.length → containsName l n = true →
      cond (l.getD (posOfName l n) default) = true →
      assignFind ((l.zip vals).foldl
        (fun m p => if cond p.1 then assignSet m p.1.name p.2 else m) base) n =
        some (vals.getD (posOfName l n) 0) := by
  intro l
  induction l with
  | nil => intro vals base cond n _ _ h _; simp [containsName] at h
  | cons i rest ih =>
      intro vals base cond n hnod hlen h hcond
      match vals with
      | [] => simp at hlen
      | v :: vals' =>
          rw [List.zip_cons_cons, List.foldl_cons]
          by_cases hi : (i.name == n) = true
          · have hin : i.name = n := by simpa using hi
            have hnone : ∀ p ∈ rest.zip vals', p.1.name ≠ n := by
              intro p hp hcon
              obtain ⟨x, w⟩ := p
              have hmem : x ∈ rest := (List.of_mem_zip hp).1
              have : i.name ∈ rest.map (fun j => j.name) := by
                rw [hin, ← hcon]
                exact List.mem_map_of_mem _ hmem
              simp only [nodupNames, List.map_cons, decide_eq_true_eq] at hnod
              exact (List.nodup_cons.mp hnod).1 this
            have hc : cond i = true := by
              simpa [posOfName, List.findIdx_cons, hi] using hcond
            rw [hc, if_pos rfl, assignFind_foldCond_preserve _ _ _ _ hnone,
              assignFind_assignSet, if_pos hin.symm]
            simp [posOfName, List.findIdx_cons, hi]
          · have hrest : containsName rest n = true := by
              simp only [containsName, List.any_cons, hi, Bool.false_or] at h
              exact h
            have hnod' : nodupNames rest = true := by
              simp only [nodupNames, List.map_cons, decide_eq_true_eq] at hnod
              simp only [nodupNames, decide_eq_true_eq]
              exact (List.nodup_cons.mp hnod).2
            have hcond' : cond (rest.getD (posOfName rest n) default) = true := by
              simpa [posOfName, List.findIdx_cons, hi] using hcond
            rw [ih vals' _ cond n hnod' (by simpa using hlen) hrest hcond']
            simp [posOfName, List.findIdx_cons, hi]

/-- Mapping then traversing equals traversing the composition, for Except. -/
theorem exceptMapM_map {α β γ ε : Type} (l : List α) (g : α → β) (f : β → Except ε γ) :
    (l.map g).mapM f = l.mapM (fun x => f (g x)) := by
  induction l with
  | nil => rfl
  | cons a l ih => rw [List.map_cons, List.mapM_cons, List.mapM_cons, ih]

/-- Traversing the attached list with a function of the value alone equals
traversing the plain list, for Except. -/
theorem exceptMapM_attach {α γ ε : Type} (l : List α) (F : α → Except ε γ) :
    l.attach.mapM (fun st => F st.val) = l.mapM F := by
  induction l with
  | nil => rfl
  | cons a l ih =>
      rw [List.attach_cons, List.mapM_cons, exceptMapM_map, List.mapM_cons, ← ih]

/-- A traversal whose steps all succeed pointwise is the successful map. -/
theorem exceptMapM_ok {α γ ε : Type} (l : List α) (f : α → Except ε γ) (g : α → γ)
    (h : ∀ x ∈ l, f x = .ok (g x)) : l.mapM f = .ok (l.map g) := by
  induction l with
  | nil => rfl
  | cons a l ih =>
      rw [List.mapM_cons, h a (List.mem_cons_self a l),
        ih (fun x hx => h x (List.mem_cons_of_mem a hx))]
      rfl

/-- A traversal whose steps all succeed yields a success of the same length. -/
theorem exceptMapM_exists {α γ ε : Type} (l : List α) (f : α → Except ε γ)
    (h : ∀ x ∈ l, ∃ y, f x = .ok y) :
    ∃ ys, l.mapM f = .ok ys ∧ ys.length = l.length := by
  induction l with
  | nil => exact ⟨[], rfl, rfl⟩
  | cons a l ih =>
      obtain ⟨y, hy⟩ := h a (List.mem_cons_self a l)
      obtain ⟨ys, hys, hlen⟩ := ih (fun x hx => h x (List.mem_cons_of_mem a hx))
      refine ⟨y :: ys, ?_, by simp [hlen]⟩
      rw [List.mapM_cons, hy, hys]
      rfl

/-- Pointwise equal step functions traverse equally, for Except. -/
theorem exceptMapM_congr {α γ ε : Type} (l : List α) (f g : α → Except ε γ)
    (h : ∀ x ∈ l, f x = g x) : l.mapM f = l.mapM g := by
  induction l with
  | nil => rfl
  | cons a l ih =>
      rw [List.mapM_cons, List.mapM_cons, h a (List.mem_cons_self a l),
        ih (fun x hx => h x (List.mem_cons_of_mem a hx))]

/-- Binding into a pure continuation is mapping, for Except. -/
theorem exceptBind_pure {ε α β : Type} (m : Except ε α) (f : α → β) :
    (m >>= fun v => pure (f v)) = Except.map f m := by
  cases m <;> rfl

/-- Name membership restated as an existential over the sequence. -/
theorem containsName_iff (l : List Index) (n : String) :
    containsName l n = true ↔ ∃ i ∈ l, i.name = n := by
  simp [containsName, List.any_eq_true]

/-- Index membership restated as an existential over the sequence. -/
theorem containsIndex_iff (l : List Index) (i : Index) :
    containsIndex l i = true ↔ ∃ j ∈ l, indexEq j i = true := by
  simp [containsIndex, List.any_eq_true]

/-- The spec index equality compares name and range bounds. -/
theorem indexEq_iff (a b : Index) :
    indexEq a b = true ↔
      a.name = b.name ∧ a.range.lo = b.range.lo ∧ a.range.hi = b.range.hi := by
  simp [indexEq, and_assoc]

/-- The spec index equality is reflexive. -/
theorem indexEq_refl (a : Index) : indexEq a a = true := by
  simp [indexEq]

/-- The spec index equality is symmetric. -/
theorem indexEq_symm (a b : Index) (h : indexEq a b = true) : indexEq b a = true := by
  rw [indexEq_iff] at h ⊢
  exact ⟨h.1.symm, h.2.1.symm, h.2.2.symm⟩

/-- A plain write fold preserves presence of a name in the map. -/
theorem assignFind_foldPlain_mono :
    ∀ (ps : List (Index × Nat)) (base : IndexAssignments) (n : String),
      (assignFind base n).isSome = true →
      (assignFind (ps.foldl (fun m p => assignSet m p.1.name p.2) base) n).isSome = true := by
  intro ps
  induction ps with
  | nil => intro base n h; exact h
  | cons p rest ih =>
      intro base n h
      rw [List.foldl_cons]
      apply ih
      rw [assignFind_assignSet]
      by_cases hc : n = p.1.name
      · rw [if_pos hc]; rfl
      · rw [if_neg hc]; exact h

/-- A conditional write fold preserves presence of a name in the map. -/
theorem assignFind_foldCond_mono :
    ∀ (ps : List (Index × Nat)) (base : IndexAssignments) (cond : Index → Bool) (n : String),
      (assignFind base n).isSome = true →
      (assignFind (ps.foldl
        (fun m p => if cond p.1 then assignSet m p.1.name p.2 else m) base) n).isSome = true := by
  intro ps
  induction ps with
  | nil => intro base cond n h; exact h
  | cons p rest ih =>
      intro base cond n h
      rw [List.foldl_cons]
      apply ih
      by_cases hcond : cond p.1 = true
      · rw [if_pos hcond, assignFind_assignSet]
        by_cases hc : n = p.1.name
        · rw [if_pos hc]; rfl
        · rw [if_neg hc]; exact h
      · rw [if_neg hcond]; exact h

/-- The plain fold of index-value pairs stores every present name. -/
theorem assignFind_zipFoldPlain_some :
    ∀ (l : List Index) (vals : List Nat) (base : IndexAssignments) (n : String),
      vals.length = l.length → containsName l n = true →
      (assignFind ((l.zip vals).foldl
        (fun m p => assignSet m p.1.name p.2) base) n).isSome = true := by
  intro l
  induction l with
  | nil => intro vals base n _ h; simp [containsName] at h
  | cons i rest ih =>
      intro vals base n hlen h
      match vals with
      | [] => simp at hlen
      | v :: vals' =>
          rw [List.zip_cons_cons, List.foldl_cons]
          by_cases hrest : containsName rest n = true
          · exact ih vals' _ n (by simpa using hlen) hrest
          · have hi : i.name = n := by
              rw [containsName_iff] at h
              obtain ⟨j, hj, hjn⟩ := h
              rcases List.mem_cons.mp hj with hj | hj
              · rw [← hj]; exact hjn
              · exact absurd ((containsName_iff rest n).mpr ⟨j, hj, hjn⟩) hrest
            apply assignFind_foldPlain_mono
            rw [assignFind_assignSet, if_pos hi.symm]
            rfl

/-- The conditional fold of index-value pairs stores every present name whose
index passes the condition. -/
theorem assignFind_zipFoldCond_some :
    ∀ (l : List Index) (vals : List Nat) (base : IndexAssignments) (cond : Index → Bool)
      (n : String),
      vals.length = l.length →
      (∃ j ∈ l, j.name = n ∧ cond j = true) →
      (assignFind ((l.zip vals).foldl
        (fun m p => if cond p.1 then assignSet m p.1.name p.2 else m) base) n).isSome = true := by
  intro l
  induction l with
  | nil =>
      intro vals base cond n _ h
      obtain ⟨j, hj, _⟩ := h
      exact absurd hj (List.not_mem_nil j)
  | cons i rest ih =>
      intro vals base cond n hlen h
      match vals with
      | [] => simp at hlen
      | v :: vals' =>
          rw [List.zip_cons_cons, List.foldl_cons]
          obtain ⟨j, hj, hjn, hjc⟩ := h
          rcases List.mem_cons.mp hj with hj | hj
          · subst hj
            apply assignFind_foldCond_mono
            rw [if_pos hjc, assignFind_assignSet, if_pos hjn.symm]
            rfl
          · exact ih vals' _ cond n (by simpa using hlen) ⟨j, hj, hjn, hjc⟩

/-- Applying an assignment whose lookups succeed pointwise yields the mapped
value vector. -/
theorem applyAssignments_map (a : IndexAssignments) (own : List Index) (g : Index → Nat)
    (h : ∀ i ∈ own, assignFind a i.name = some (g i)) :
    applyAssignments a own = .ok (own.map g) := by
  unfold applyAssignments
  apply exceptMapM_ok
  intro i hi
  rw [h i hi]

/-- Applying an assignment whose lookups succeed yields a success of the
arity of the index sequence. -/
theorem applyAssignments_exists (a : IndexAssignments) (own : List Index)
    (h : ∀ i ∈ own, (assignFind a i.name).isSome = true) :
    ∃ xs, applyAssignments a own = .ok xs ∧ xs.length = own.length := by
  unfold applyAssignments
  apply exceptMapM_exists
  intro i hi
  obtain ⟨v, hv⟩ := Option.isSome_iff_exists.mp (h i hi)
  exact ⟨v, by rw [hv]⟩

/-- The assignment built by AddedTensor.Evaluate maps each declared name to
the declared argument at its position. -/
theorem buildAssignment_find (declared : List Index) (args : List Nat) (n : String)
    (hnod : nodupNames declared = true) (hlen : args.length = declared.length)
    (h : containsName declared n = true) :
    assignFind (buildAssignment declared args) n =
      some (args.getD (posOfName declared n) 0) := by
  unfold buildAssignment
  exact assignFind_foldPlain_precise declared args [] n hnod hlen h

/-- The assignment built by AddedTensor.Evaluate stores every declared name. -/
theorem buildAssignment_some (declared : List Index) (args : List Nat) (n : String)
    (hlen : args.length = declared.length) (h : containsName declared n = true) :
    (assignFind (buildAssignment declared args) n).isSome = true := by
  unfold buildAssignment
  exact assignFind_zipFoldPlain_some declared args [] n hlen h

/-- Filtering preserves distinctness of names. -/
theorem nodupNames_filter (l : List Index) (p : Index → Bool) (h : nodupNames l = true) :
    nodupNames (l.filter p) = true := by
  simp only [nodupNames, decide_eq_true_eq] at h ⊢
  exact List.Nodup.sublist (List.Sublist.map _ (List.filter_sublist l)) h

/-- Two members of a duplicate-free sequence with equal names are equal. -/
theorem mem_name_unique (l : List Index) (hnod : nodupNames l = true) (a b : Index)
    (ha : a ∈ l) (hb : b ∈ l) (hab : a.name = b.name) : a = b := by
  simp only [nodupNames, decide_eq_true_eq] at hnod
  exact List.inj_on_of_nodup_map hnod ha hb hab

/-- The contracted header of the Multiplied factory has distinct names when
both factors do. -/
theorem nodupNames_contract (a b : List Index) (ha : nodupNames a = true)
    (hb : nodupNames b = true) : nodupNames (contractIndices a b) = true := by
  simp only [nodupNames, decide_eq_true_eq] at ha hb ⊢
  unfold contractIndices
  rw [List.filter_append, List.map_append]
  apply List.Nodup.append
  · exact List.Nodup.sublist (List.Sublist.map _ (List.filter_sublist a)) ha
  · exact List.Nodup.sublist (List.Sublist.map _ (List.filter_sublist b)) hb
  · intro n hna hnb
    obtain ⟨x, hx, hxn⟩ := List.mem_map.mp hna
    obtain ⟨y, hy, hyn⟩ := List.mem_map.mp hnb
    obtain ⟨hxa, hxp⟩ := List.mem_filter.mp hx
    obtain ⟨hyb, _⟩ := List.mem_filter.mp hy
    have hca : containsName a x.name = true :=
      (containsName_iff a x.name).mpr ⟨x, hxa, rfl⟩
    have hcb : containsName b x.name = true :=
      (containsName_iff b x.name).mpr ⟨y, hyb, by rw [hyn, ← hxn]⟩
    rw [hca, hcb] at hxp
    simp at hxp

/-- Under valid ranges the combination list is never empty. -/
theorem getAllIndexCombinations_ne_nil (l : List Index) (h : validRanges l = true) :
    getAllIndexCombinations l ≠ [] := by
  induction l with
  | nil => simp [getAllIndexCombinations]
  | cons i rest ih =>
      simp only [validRanges, List.all_cons, Bool.and_eq_true] at h
      have hrest := ih h.2
      obtain ⟨c, hc⟩ := List.exists_mem_of_ne_nil _ hrest
      have hmem2 : i.range.lo :: c ∈ getAllIndexCombinations (i :: rest) := by
        rw [getAllIndexCombinations]
        apply List.mem_flatMap.mpr
        refine ⟨i.range.lo, ?_, List.mem_map.mpr ⟨c, hc, rfl⟩⟩
        simp only [rangeValues, List.mem_map, List.mem_range]
        have : i.range.lo ≤ i.range.hi := by simpa using h.1
        exact ⟨0, by omega, by omega⟩
      exact List.ne_nil_of_mem hmem2

/-- Every produced combination has the arity of the index sequence. -/
theorem getAllIndexCombinations_length (l : List Index) :
    ∀ c ∈ getAllIndexCombinations l, c.length = l.length := by
  induction l with
  | nil =>
      intro c hc
      simp only [getAllIndexCombinations, List.mem_singleton] at hc
      simp [hc]
  | cons i rest ih =>
      intro c hc
      simp only [getAllIndexCombinations, List.mem_flatMap, List.mem_map] at hc
      obtain ⟨v, _, c2, hc2, hcc⟩ := hc
      rw [← hcc]
      simp [ih c2 hc2]

/-- Binding a success applies the continuation, for Except. -/
theorem exceptOk_bind {ε α β : Type} (a : α) (f : α → Except ε β) :
    (Except.ok a : Except ε α) >>= f = f a := rfl

/-- Filtering preserves validity of ranges. -/
theorem validRanges_filter (l : List Index) (p : Index → Bool) (h : validRanges l = true) :
    validRanges (l.filter p) = true := by
  simp only [validRanges, List.all_eq_true] at h ⊢
  intro i hi
  exact h i (List.mem_filter.mp hi).1

/-- AddedTensor.Evaluate on a matching argument count: the assignment built
from the declared sequence is applied through every summand's own index
order, and the evaluations are summed. -/
theorem evaluate_added (summands : List TensorExpr) (indices : List Index) (args : List Nat)
    (hlen : args.length = indices.length) :
    TensorExpr.evaluate (.added summands indices) args =
      (summands.mapM (fun t => do
        let pos ← applyAssignments (buildAssignment indices args) (TensorExpr.getIndices t)
        TensorExpr.evaluate t pos)) >>=
      (fun vals => pure (vals.foldl (fun a b => a + b) 0)) := by
  simp only [TensorExpr.evaluate]
  rw [if_neg (by simp [hlen])]
  exact congrArg (fun m => m >>= fun vals => pure (vals.foldl (fun a b => a + b) 0))
    (exceptMapM_attach summands (fun t => do
      let pos ← applyAssignments (buildAssignment indices args) (TensorExpr.getIndices t)
      TensorExpr.evaluate t pos))

/-- MultipliedTensor.Evaluate on a matching argument count, when the
contracted combinations are nonempty: both factor assignments start from the
contraction-tuple writes and then take the declared arguments routed by
index membership, and the products are summed over the combinations. -/
theorem evaluate_multiplied (A B : TensorExpr) (indices : List Index) (args : List Nat)
    (hlen : args.length = indices.length)
    (hnnil : getAllIndexCombinations ((TensorExpr.getIndices A).filter
      (fun i => !(containsIndex indices i))) ≠ []) :
    TensorExpr.evaluate (.multiplied A B indices) args =
      ((getAllIndexCombinations ((TensorExpr.getIndices A).filter
          (fun i => !(containsIndex indices i)))).mapM (fun targs => do
        let v1 ← applyAssignments ((indices.zip args).foldl
          (fun m p => if containsIndex (TensorExpr.getIndices A) p.1
            then assignSet m p.1.name p.2 else m)
          ((((TensorExpr.getIndices A).filter (fun i => !(containsIndex indices i))).zip
            targs).foldl (fun m p => assignSet m p.1.name p.2) []))
          (TensorExpr.getIndices A)
        let r1 ← TensorExpr.evaluate A v1
        let v2 ← applyAssignments ((indices.zip args).foldl
          (fun m p => if containsIndex (TensorExpr.getIndices B) p.1
            then assignSet m p.1.name p.2 else m)
          ((((TensorExpr.getIndices A).filter (fun i => !(containsIndex indices i))).zip
            targs).foldl (fun m p => assignSet m p.1.name p.2) []))
          (TensorExpr.getIndices B)
        let r2 ← TensorExpr.evaluate B v2
        pure (r1 * r2))) >>=
      (fun terms => pure (terms.foldl (fun a b => a + b) 0)) := by
  have hcomb : (decide (0 < (getAllIndexCombinations ((TensorExpr.getIndices A).filter
      (fun i => !(containsIndex indices i)))).length)) = true := by
    rw [decide_eq_true_eq]
    exact List.length_pos.mpr hnnil
  simp only [TensorExpr.evaluate]
  rw [if_neg (by simp [hlen]), hcomb]
  simp only [Bool.not_true, Bool.false_eq_true, if_false, if_true]

/-- A bind after a pointwise successful traversal succeeds when the
continuation always succeeds. -/
theorem exceptMapM_bind_exists {ε α β γ : Type} (l : List α) (f : α → Except ε β)
    (g : List β → Except ε γ)
    (h : ∀ x ∈ l, ∃ y, f x = .ok y) (hg : ∀ ys : List β, ∃ z, g ys = .ok z) :
    ∃ q, (l.mapM f >>= g) = Except.ok q := by
  obtain ⟨ys, hys, _⟩ := exceptMapM_exists l f h
  obtain ⟨z, hz⟩ := hg ys
  exact ⟨z, by rw [hys, exceptOk_bind, hz]⟩

/-- Well-formed tensors evaluate successfully on arguments of the declared
arity: Evaluate never raises on a structurally sound expression fed the
declared number of argument values. -/
theorem eval_total :
    ∀ (N : Nat) (t : TensorExpr), sizeOf t ≤ N → TensorExpr.wf t = true →
      ∀ args : List Nat, args.length = (TensorExpr.getIndices t).length →
      ∃ q, TensorExpr.evaluate t args = Except.ok q := by
  intro N
  induction N with
  | zero =>
      intro t ht
      exfalso
      cases t <;> simp at ht
  | succ N ih =>
      intro t ht hwf args hlen
      cases t with
      | generic nm pr idx tg => exact ⟨0, by simp [TensorExpr.evaluate]⟩
      | zero idx => exact ⟨0, by simp [TensorExpr.evaluate]⟩
      | scalarT nm pr idx v => exact ⟨v, by simp [TensorExpr.evaluate]⟩
      | delta idx =>
          have h2 : idx.length = 2 := by simpa [TensorExpr.wf] using hwf
          simp only [TensorExpr.getIndices] at hlen
          have ha : (args.length == 2) = true := by simp [hlen, h2]
          exact ⟨if args.getD 0 0 == args.getD 1 0 then 1 else 0,
            by simp [TensorExpr.evaluate, ha]⟩
      | epsilonT idx =>
          exact ⟨epsilonComponents args, by simp [TensorExpr.evaluate]⟩
      | gammaT idx p q =>
          have h2 : idx.length = 2 := by simpa [TensorExpr.wf] using hwf
          simp only [TensorExpr.getIndices] at hlen
          have ha : (args.length != 2) = false := by simp [hlen, h2]
          exact ⟨gammaComponents ((idx.getD 0 default).range.lo) p
              (args.getD 0 0) (args.getD 1 0),
            by simp [TensorExpr.evaluate, ha]⟩
      | epsilonGamma ne ng idx =>
          exact ⟨epsilonGammaEval ne ng idx args, by simp [TensorExpr.evaluate]⟩
      | scaled A c idx =>
          simp only [TensorExpr.wf, Bool.and_eq_true, decide_eq_true_eq] at hwf
          obtain ⟨hwfA, hidx⟩ := hwf
          simp only [TensorExpr.getIndices] at hlen
          have hsz : sizeOf A ≤ N := by
            have ht2 := ht
            simp at ht2
            omega
          obtain ⟨q, hq⟩ := ih A hsz hwfA args (by rw [hlen, hidx])
          exact ⟨q * c, by simp [TensorExpr.evaluate, hq, Except.map]⟩
      | added summands indices =>
          simp only [TensorExpr.getIndices] at hlen
          have hwf2 := hwf
          simp only [TensorExpr.wf, List.all_eq_true] at hwf2
          rw [evaluate_added summands indices args hlen]
          apply exceptMapM_bind_exists
          · intro t2 ht2
            have hsub := hwf2 ⟨t2, ht2⟩ (List.mem_attach summands ⟨t2, ht2⟩)
            simp only [Bool.and_eq_true, List.all_eq_true] at hsub
            obtain ⟨hwft, hcov⟩ := hsub
            obtain ⟨pos, hpos, hposlen⟩ := applyAssignments_exists
              (buildAssignment indices args) (TensorExpr.getIndices t2)
              (fun i hi => buildAssignment_some indices args i.name hlen (hcov i hi))
            have hszt : sizeOf t2 ≤ N := by
              have hmem := List.sizeOf_lt_of_mem ht2
              have ht3 := ht
              simp at ht3
              omega
            obtain ⟨q, hq⟩ := ih t2 hszt hwft pos (by rw [hposlen])
            exact ⟨q, by rw [hpos, exceptOk_bind]; exact hq⟩
          · intro ys
            exact ⟨ys.foldl (fun a b => a + b) 0, rfl⟩
      | multiplied A B indices =>
          simp only [TensorExpr.getIndices] at hlen
          simp only [TensorExpr.wf, Bool.and_eq_true, decide_eq_true_eq] at hwf
          obtain ⟨⟨⟨hwfA, hwfB⟩, hvr⟩, hidx⟩ := hwf
          have hvrc : validRanges ((TensorExpr.getIndices A).filter
              (fun i => !(containsIndex indices i))) = true :=
            validRanges_filter _ _ hvr
          have hnnil := getAllIndexCombinations_ne_nil _ hvrc
          have hszA : sizeOf A ≤ N := by
            have ht2 := ht
            simp at ht2
            omega
          have hszB : sizeOf B ≤ N := by
            have ht2 := ht
            simp at ht2
            omega
          rw [evaluate_multiplied A B indices args hlen hnnil]
          apply exceptMapM_bind_exists
          · intro targs htargs
            have htlen : targs.length = ((TensorExpr.getIndices A).filter
                (fun i => !(containsIndex indices i))).length :=
              getAllIndexCombinations_length _ targs htargs
            have hA : ∀ i ∈ TensorExpr.getIndices A,
                (assignFind ((indices.zip args).foldl
                  (fun m p => if containsIndex (TensorExpr.getIndices A) p.1
                    then assignSet m p.1.name p.2 else m)
                  ((((TensorExpr.getIndices A).filter
                    (fun i => !(containsIndex indices i))).zip targs).foldl
                    (fun m p => assignSet m p.1.name p.2) [])) i.name).isSome = true := by
              intro i hi
              by_cases hc : containsIndex indices i = true
              · obtain ⟨p, hp, hpe⟩ := (containsIndex_iff _ _).mp hc
                refine assignFind_zipFoldCond_some indices args _
                  (fun x => containsIndex (TensorExpr.getIndices A) x) i.name hlen
                  ⟨p, hp, ((indexEq_iff p i).mp hpe).1, ?_⟩
                exact (containsIndex_iff _ _).mpr ⟨i, hi, indexEq_symm p i hpe⟩
              · have hc2 : containsIndex indices i = false := by
                  cases hx : containsIndex indices i
                  · rfl
                  · exact absurd hx hc
                have himem : i ∈ (TensorExpr.getIndices A).filter
                    (fun i => !(containsIndex indices i)) :=
                  List.mem_filter.mpr ⟨hi, by simp [hc2]⟩
                exact assignFind_foldCond_mono (indices.zip args) _
                  (fun x => containsIndex (TensorExpr.getIndices A) x) i.name
                  (assignFind_zipFoldPlain_some _ targs [] i.name htlen
                    ((containsName_iff _ _).mpr ⟨i, himem, rfl⟩))
            have hB : ∀ i ∈ TensorExpr.getIndices B,
                (assignFind ((indices.zip args).foldl
                  (fun m p => if containsIndex (TensorExpr.getIndices B) p.1
                    then assignSet m p.1.name p.2 else m)
                  ((((TensorExpr.getIndices A).filter
                    (fun i => !(containsIndex indices i))).zip targs).foldl
                    (fun m p => assignSet m p.1.name p.2) [])) i.name).isSome = true := by
              intro i hi
              by_cases hc : containsIndex indices i = true
              · obtain ⟨p, hp, hpe⟩ := (containsIndex_iff _ _).mp hc
                refine assignFind_zipFoldCond_some indices args _
                  (fun x => containsIndex (TensorExpr.getIndices B) x) i.name hlen
                  ⟨p, hp, ((indexEq_iff p i).mp hpe).1, ?_⟩
                exact (containsIndex_iff _ _).mpr ⟨i, hi, indexEq_symm p i hpe⟩
              · have hc2 : containsIndex indices i = false := by
                  cases hx : containsIndex indices i
                  · rfl
                  · exact absurd hx hc
                have hAname : containsName (TensorExpr.getIndices A) i.name = true := by
                  by_contra hna
                  have hna2 : containsName (TensorExpr.getIndices A) i.name = false := by
                    cases hx : containsName (TensorExpr.getIndices A) i.name
                    · rfl
                    · exact absurd hx hna
                  have hmem : i ∈ contractIndices (TensorExpr.getIndices A)
                      (TensorExpr.getIndices B) := by
                    unfold contractIndices
                    apply List.mem_filter.mpr
                    exact ⟨List.mem_append.mpr (Or.inr hi), by simp [hna2]⟩
                  rw [← hidx] at hmem
                  have hci : containsIndex indices i = true :=
                    (containsIndex_iff _ _).mpr ⟨i, hmem, indexEq_refl i⟩
                  exact absurd hci hc
                obtain ⟨j, hjA, hjn⟩ := (containsName_iff _ _).mp hAname
                have hjc : containsIndex indices j = false := by
                  cases hx : containsIndex indices j
                  · rfl
                  · exfalso
                    obtain ⟨k, hk, hke⟩ := (containsIndex_iff _ _).mp hx
                    have hkmem := hk
                    rw [hidx] at hkmem
                    unfold contractIndices at hkmem
                    obtain ⟨_, hkp⟩ := List.mem_filter.mp hkmem
                    have hkn : k.name = i.name := by
                      rw [((indexEq_iff k j).mp hke).1, hjn]
                    have h1 : containsName (TensorExpr.getIndices A) k.name = true := by
                      rw [hkn]; exact hAname
                    have h2 : containsName (TensorExpr.getIndices B) k.name = true := by
                      rw [hkn]; exact (containsName_iff _ _).mpr ⟨i, hi, rfl⟩
                    rw [h1, h2] at hkp
                    simp at hkp
                have hjmem : j ∈ (TensorExpr.getIndices A).filter
                    (fun i => !(containsIndex indices i)) :=
                  List.mem_filter.mpr ⟨hjA, by simp [hjc]⟩
                exact assignFind_foldCond_mono (indices.zip args) _
                  (fun x => containsIndex (TensorExpr.getIndices B) x) i.name
                  (assignFind_zipFoldPlain_some _ targs [] i.name htlen
                    ((containsName_iff _ _).mpr ⟨j, hjmem, hjn⟩))
            obtain ⟨v1, hv1, hv1len⟩ := applyAssignments_exists _ _ hA
            obtain ⟨r1, hr1⟩ := ih A hszA hwfA v1 (by rw [hv1len])
            obtain ⟨v2, hv2, hv2len⟩ := applyAssignments_exists _ _ hB
            obtain ⟨r2, hr2⟩ := ih B hszB hwfB v2 (by rw [hv2len])
            refine ⟨r1 * r2, ?_⟩
            simp only [hv1, hr1, hv2, hr2, exceptOk_bind]
            rfl
          · intro ys
            exact ⟨ys.foldl (fun a b => a + b) 0, rfl⟩
      | substitute A indices =>
          simp only [TensorExpr.getIndices] at hlen
          simp only [TensorExpr.wf, Bool.and_eq_true, List.all_eq_true] at hwf
          obtain ⟨hwfA, hcov⟩ := hwf
          obtain ⟨pos, hpos, hposlen⟩ := applyAssignments_exists
            (buildAssignment indices args) (TensorExpr.getIndices A)
            (fun i hi => buildAssignment_some indices args i.name hlen (hcov i hi))
          have hsz : sizeOf A ≤ N := by
            have ht2 := ht
            simp at ht2
            omega
          obtain ⟨q, hq⟩ := ih A hsz hwfA pos (by rw [hposlen])
          refine ⟨q, ?_⟩
          simp only [TensorExpr.evaluate]
          rw [if_neg (by simp [hlen]), hpos, exceptOk_bind]
          exact hq

/-- Binding an error short-circuits, for Except. -/
theorem exceptErr_bind {ε α β : Type} (e : ε) (f : α → Except ε β) :
    (Except.error e : Except ε α) >>= f = Except.error e := rfl

/-- AddedTensor.Evaluate agrees with the specification sum: the declared
assignment routed through every summand by name. -/
theorem evaluate_added_spec (summands : List TensorExpr) (indices : List Index)
    (args : List Nat) (hlen : args.length = indices.length)
    (hnod : nodupNames indices = true)
    (hcov : ∀ t ∈ summands, ∀ i ∈ TensorExpr.getIndices t,
      containsName indices i.name = true) :
    TensorExpr.evaluate (.added summands indices) args =
      addedSpecEval summands indices args := by
  rw [evaluate_added summands indices args hlen]
  have hpt : ∀ t ∈ summands,
      (do
        let pos ← applyAssignments (buildAssignment indices args) (TensorExpr.getIndices t)
        TensorExpr.evaluate t pos) =
      TensorExpr.evaluate t (routeByName (TensorExpr.getIndices t) indices args) := by
    intro t htmem
    have happ : applyAssignments (buildAssignment indices args) (TensorExpr.getIndices t) =
        .ok (routeByName (TensorExpr.getIndices t) indices args) :=
      applyAssignments_map (buildAssignment indices args) (TensorExpr.getIndices t)
        (fun i => args.getD (posOfName indices i.name) 0)
        (fun i hi => buildAssignment_find indices args i.name hnod hlen (hcov t htmem i hi))
    rw [happ, exceptOk_bind]
  rw [exceptMapM_congr summands _ _ hpt, exceptBind_pure]
  rfl

/-- C4: AddedTensor.Evaluate raises IncompleteIndexAssignment on an argument
count differing from the declared index count; on a matching count it builds
the name assignment from the declared sequence and sums every summand
evaluated through its own index order (the specification sum), and on
well-formed sums with a matching count it never raises. -/
theorem claim4_added_evaluate (summands : List TensorExpr) (indices : List Index)
    (args : List Nat) :
    (args.length ≠ indices.length →
      TensorExpr.evaluate (.added summands indices) args =
        .error TErr.incompleteIndexAssignment) ∧
    (args.length = indices.length → nodupNames indices = true →
      (∀ t ∈ summands, ∀ i ∈ TensorExpr.getIndices t,
        containsName indices i.name = true) →
      TensorExpr.evaluate (.added summands indices) args =
        addedSpecEval summands indices args) ∧
    (args.length = indices.length → TensorExpr.wf (.added summands indices) = true →
      ∃ q, TensorExpr.evaluate (.added summands indices) args = Except.ok q) := by
  refine ⟨?_, ?_, ?_⟩
  · intro hne
    simp only [TensorExpr.evaluate]
    rw [if_pos (by simp [hne])]
  · intro hlen hnod hcov
    exact evaluate_added_spec summands indices args hlen hnod hcov
  · intro hlen hwf
    exact eval_total (sizeOf (TensorExpr.added summands indices))
      (.added summands indices) (le_refl _) hwf args
      (by simpa [TensorExpr.getIndices] using hlen)

/-- C4 witness: the sum of the gamma atom with indices a b and the gamma atom
with indices b a raises on three arguments, matches the specification sum on
two arguments, and evaluates successfully on two arguments. -/
theorem claim4_added_evaluate_witness :
    (TensorExpr.evaluate (.added [gammaAB, gammaBA] [idxA, idxB]) [1, 2, 3] =
      .error TErr.incompleteIndexAssignment) ∧
    (TensorExpr.evaluate (.added [gammaAB, gammaBA] [idxA, idxB]) [1, 2] =
      addedSpecEval [gammaAB, gammaBA] [idxA, idxB] [1, 2]) ∧
    (∃ q, TensorExpr.evaluate (.added [gammaAB, gammaBA] [idxA, idxB]) [1, 2] =
      Except.ok q) :=
  ⟨(claim4_added_evaluate [gammaAB, gammaBA] [idxA, idxB] [1, 2, 3]).1 (by decide),
   (claim4_added_evaluate [gammaAB, gammaBA] [idxA, idxB] [1, 2]).2.1 rfl (by decide)
     (by decide),
   (claim4_added_evaluate [gammaAB, gammaBA] [idxA, idxB] [1, 2]).2.2 rfl
     (by simp [TensorExpr.wf, gammaAB, gammaBA, idxA, idxB, TensorExpr.getIndices,
       containsName])⟩

/-- MultipliedTensor.Evaluate agrees with the specification sum: declared
arguments routed to the factors by name membership, contracted indices
summed over the Cartesian product of their ranges. -/
theorem evaluate_multiplied_spec (A B : TensorExpr) (indices : List Index) (args : List Nat)
    (hidx : indices = contractIndices (TensorExpr.getIndices A) (TensorExpr.getIndices B))
    (hnodA : nodupNames (TensorExpr.getIndices A) = true)
    (hnodB : nodupNames (TensorExpr.getIndices B) = true)
    (hvr : validRanges (TensorExpr.getIndices A) = true)
    (hlen : args.length = indices.length) :
    TensorExpr.evaluate (.multiplied A B indices) args =
      multipliedSpecEval A B indices args := by
  have hnodI : nodupNames indices = true := by
    rw [hidx]
    exact nodupNames_contract _ _ hnodA hnodB
  have hnodC : nodupNames ((TensorExpr.getIndices A).filter
      (fun i => !(containsIndex indices i))) = true :=
    nodupNames_filter _ _ hnodA
  have hvrc := validRanges_filter (TensorExpr.getIndices A)
    (fun i => !(containsIndex indices i)) hvr
  have hnnil := getAllIndexCombinations_ne_nil _ hvrc
  rw [evaluate_multiplied A B indices args hlen hnnil]
  have hpt : ∀ targs ∈ getAllIndexCombinations ((TensorExpr.getIndices A).filter
      (fun i => !(containsIndex indices i))),
      (do
        let v1 ← applyAssignments ((indices.zip args).foldl
          (fun m p => if containsIndex (TensorExpr.getIndices A) p.1
            then assignSet m p.1.name p.2 else m)
          ((((TensorExpr.getIndices A).filter (fun i => !(containsIndex indices i))).zip
            targs).foldl (fun m p => assignSet m p.1.name p.2) []))
          (TensorExpr.getIndices A)
        let r1 ← TensorExpr.evaluate A v1
        let v2 ← applyAssignments ((indices.zip args).foldl
          (fun m p => if containsIndex (TensorExpr.getIndices B) p.1
            then assignSet m p.1.name p.2 else m)
          ((((TensorExpr.getIndices A).filter (fun i => !(containsIndex indices i))).zip
            targs).foldl (fun m p => assignSet m p.1.name p.2) []))
          (TensorExpr.getIndices B)
        let r2 ← TensorExpr.evaluate B v2
        pure (r1 * r2)) = (do
        let r1 ← TensorExpr.evaluate A (routeProduct (TensorExpr.getIndices A)
          ((TensorExpr.getIndices A).filter (fun i => !(containsIndex indices i)))
          indices args targs)
        let r2 ← TensorExpr.evaluate B (routeProduct (TensorExpr.getIndices B)
          ((TensorExpr.getIndices A).filter (fun i => !(containsIndex indices i)))
          indices args targs)
        pure (r1 * r2)) := by
    intro targs htargs
    have htlen : targs.length = ((TensorExpr.getIndices A).filter
        (fun i => !(containsIndex indices i))).length :=
      getAllIndexCombinations_length _ targs htargs
    have happ1 : applyAssignments ((indices.zip args).foldl
        (fun m p => if containsIndex (TensorExpr.getIndices A) p.1
          then assignSet m p.1.name p.2 else m)
        ((((TensorExpr.getIndices A).filter (fun i => !(containsIndex indices i))).zip
          targs).foldl (fun m p => assignSet m p.1.name p.2) []))
        (TensorExpr.getIndices A) =
        .ok (routeProduct (TensorExpr.getIndices A)
          ((TensorExpr.getIndices A).filter (fun i => !(containsIndex indices i)))
          indices args targs) := by
      simp only [routeProduct]
      apply applyAssignments_map
      intro i hi
      by_cases hc : containsIndex indices i = true
      · obtain ⟨p, hp, hpe⟩ := (containsIndex_iff _ _).mp hc
        have hpn : p.name = i.name := ((indexEq_iff p i).mp hpe).1
        have hcn : containsName indices i.name = true :=
          (containsName_iff _ _).mpr ⟨p, hp, hpn⟩
        obtain ⟨hposlt, hkname⟩ := posOfName_spec indices i.name hcn
        have hkmem : indices.getD (posOfName indices i.name) default ∈ indices := by
          rw [List.getD_eq_getElem indices default hposlt]
          exact List.getElem_mem hposlt
        have hkp : indices.getD (posOfName indices i.name) default = p :=
          mem_name_unique indices hnodI _ p hkmem hp (by rw [hkname, hpn])
        have hcond : containsIndex (TensorExpr.getIndices A)
            (indices.getD (posOfName indices i.name) default) = true := by
          rw [hkp]
          exact (containsIndex_iff _ _).mpr ⟨i, hi, indexEq_symm p i hpe⟩
        rw [hc, if_pos rfl]
        exact assignFind_foldCond_precise indices args _
          (fun x => containsIndex (TensorExpr.getIndices A) x) i.name hnodI hlen hcn hcond
      · have hc2 : containsIndex indices i = false := by
          cases hx : containsIndex indices i
          · rfl
          · exact absurd hx hc
        have hcnf : containsName indices i.name = false := by
          cases hx : containsName indices i.name
          · rfl
          · exfalso
            obtain ⟨k, hk, hkn⟩ := (containsName_iff _ _).mp hx
            have hkmem := hk
            rw [hidx] at hkmem
            unfold contractIndices at hkmem
            obtain ⟨hkab, hkp⟩ := List.mem_filter.mp hkmem
            rcases List.mem_append.mp hkab with hkA | hkB
            · have hki : k = i :=
                mem_name_unique (TensorExpr.getIndices A) hnodA k i hkA hi hkn
              rw [hki] at hk
              exact absurd ((containsIndex_iff _ _).mpr ⟨i, hk, indexEq_refl i⟩) hc
            · have h1 : containsName (TensorExpr.getIndices A) k.name = true := by
                rw [hkn]
                exact (containsName_iff _ _).mpr ⟨i, hi, rfl⟩
              have h2 : containsName (TensorExpr.getIndices B) k.name = true :=
                (containsName_iff _ _).mpr ⟨k, hkB, rfl⟩
              rw [h1, h2] at hkp
              simp at hkp
        have hpres : ∀ pr ∈ indices.zip args, pr.1.name ≠ i.name := by
          intro pr hpr hcon
          obtain ⟨x, w⟩ := pr
          have hxmem : x ∈ indices := (List.of_mem_zip hpr).1
          have hxc : containsName indices i.name = true :=
            (containsName_iff _ _).mpr ⟨x, hxmem, hcon⟩
          simp [hcnf] at hxc
        have himem : i ∈ (TensorExpr.getIndices A).filter
            (fun i => !(containsIndex indices i)) :=
          List.mem_filter.mpr ⟨hi, by simp [hc2]⟩
        rw [hc2, if_neg (by simp)]
        exact (assignFind_foldCond_preserve (indices.zip args) _
          (fun x => containsIndex (TensorExpr.getIndices A) x) i.name hpres).trans
          (assignFind_foldPlain_precise ((TensorExpr.getIndices A).filter
            (fun i => !(containsIndex indices i))) targs [] i.name hnodC htlen
            ((containsName_iff _ _).mpr ⟨i, himem, rfl⟩))
    have happ2 : applyAssignments ((indices.zip args).foldl
        (fun m p => if containsIndex (TensorExpr.getIndices B) p.1
          then assignSet m p.1.name p.2 else m)
        ((((TensorExpr.getIndices A).filter (fun i => !(containsIndex indices i))).zip
          targs).foldl (fun m p => assignSet m p.1.name p.2) []))
        (TensorExpr.getIndices B) =
        .ok (routeProduct (TensorExpr.getIndices B)
          ((TensorExpr.getIndices A).filter (fun i => !(containsIndex indices i)))
          indices args targs) := by
      simp only [routeProduct]
      apply applyAssignments_map
      intro i hi
      by_cases hc : containsIndex indices i = true
      · obtain ⟨p, hp, hpe⟩ := (containsIndex_iff _ _).mp hc
        have hpn : p.name = i.name := ((indexEq_iff p i).mp hpe).1
        have hcn : containsName indices i.name = true :=
          (containsName_iff _ _).mpr ⟨p, hp, hpn⟩
        obtain ⟨hposlt, hkname⟩ := posOfName_spec indices i.name hcn
        have hkmem : indices.getD (posOfName indices i.name) default ∈ indices := by
          rw [List.getD_eq_getElem indices default hposlt]
          exact List.getElem_mem hposlt
        have hkp : indices.getD (posOfName indices i.name) default = p :=
          mem_name_unique indices hnodI _ p hkmem hp (by rw [hkname, hpn])
        have hcond : containsIndex (TensorExpr.getIndices B)
            (indices.getD (posOfName indices i.name) default) = true := by
          rw [hkp]
          exact (containsIndex_iff _ _).mpr ⟨i, hi, indexEq_symm p i hpe⟩
        rw [hc, if_pos rfl]
        exact assignFind_foldCond_precise indices args _
          (fun x => containsIndex (TensorExpr.getIndices B) x) i.name hnodI hlen hcn hcond
      · have hc2 : containsIndex indices i = false := by
          cases hx : containsIndex indices i
          · rfl
          · exact absurd hx hc
        have hAname : containsName (TensorExpr.getIndices A) i.name = true := by
          cases hx : containsName (TensorExpr.getIndices A) i.name
          · exfalso
            have hmem : i ∈ contractIndices (TensorExpr.getIndices A)
                (TensorExpr.getIndices B) := by
              unfold contractIndices
              apply List.mem_filter.mpr
              exact ⟨List.mem_append.mpr (Or.inr hi), by simp [hx]⟩
            rw [← hidx] at hmem
            exact absurd ((containsIndex_iff _ _).mpr ⟨i, hmem, indexEq_refl i⟩) hc
          · rfl
        obtain ⟨j, hjA, hjn⟩ := (containsName_iff _ _).mp hAname
        have hjc : containsIndex indices j = false := by
          cases hx : containsIndex indices j
          · rfl
          · exfalso
            obtain ⟨k, hk, hke⟩ := (containsIndex_iff _ _).mp hx
            have hkmem := hk
            rw [hidx] at hkmem
            unfold contractIndices at hkmem
            obtain ⟨_, hkp⟩ := List.mem_filter.mp hkmem
            have hkn : k.name = i.name := by
              rw [((indexEq_iff k j).mp hke).1, hjn]
            have h1 : containsName (TensorExpr.getIndices A) k.name = true := by
              rw [hkn]; exact hAname
            have h2 : containsName (TensorExpr.getIndices B) k.name = true := by
              rw [hkn]; exact (containsName_iff _ _).mpr ⟨i, hi, rfl⟩
            rw [h1, h2] at hkp
            simp at hkp
        have hjmem : j ∈ (TensorExpr.getIndices A).filter
            (fun i => !(containsIndex indices i)) :=
          List.mem_filter.mpr ⟨hjA, by simp [hjc]⟩
        have hcnf : containsName indices i.name = false := by
          cases hx : containsName indices i.name
          · rfl
          · exfalso
            obtain ⟨k, hk, hkn⟩ := (containsName_iff _ _).mp hx
            have hkmem := hk
            rw [hidx] at hkmem
            unfold contractIndices at hkmem
            obtain ⟨_, hkp⟩ := List.mem_filter.mp hkmem
            have h1 : containsName (TensorExpr.getIndices A) k.name = true := by
              rw [hkn]; exact hAname
            have h2 : containsName (TensorExpr.getIndices B) k.name = true := by
              rw [hkn]; exact (containsName_iff _ _).mpr ⟨i, hi, rfl⟩
            rw [h1, h2] at hkp
            simp at hkp
        have hpres : ∀ pr ∈ indices.zip args, pr.1.name ≠ i.name := by
          intro pr hpr hcon
          obtain ⟨x, w⟩ := pr
          have hxmem : x ∈ indices := (List.of_mem_zip hpr).1
          have hxc : containsName indices i.name = true :=
            (containsName_iff _ _).mpr ⟨x, hxmem, hcon⟩
          simp [hcnf] at hxc
        rw [hc2, if_neg (by simp)]
        exact (assignFind_foldCond_preserve (indices.zip args) _
          (fun x => containsIndex (TensorExpr.getIndices B) x) i.name hpres).trans
          (assignFind_foldPlain_precise ((TensorExpr.getIndices A).filter
            (fun i => !(containsIndex indices i))) targs [] i.name hnodC htlen
            ((containsName_iff _ _).mpr ⟨j, hjmem, hjn⟩))
    simp only [happ1, happ2, exceptOk_bind]
  rw [exceptMapM_congr _ _ _ hpt, exceptBind_pure]
  rfl

/-- With no contracted indices the specification sum is the single product
term taken at the empty contraction tuple. -/
theorem multipliedSpecEval_nil (A B : TensorExpr) (indices : List Index) (args : List Nat)
    (hfil : (TensorExpr.getIndices A).filter (fun i => !(containsIndex indices i)) = []) :
    multipliedSpecEval A B indices args = (do
      let r1 ← TensorExpr.evaluate A
        (routeProduct (TensorExpr.getIndices A) [] indices args [])
      let r2 ← TensorExpr.evaluate B
        (routeProduct (TensorExpr.getIndices B) [] indices args [])
      pure (r1 * r2)) := by
  simp only [multipliedSpecEval]
  rw [hfil]
  simp only [getAllIndexCombinations]
  rw [List.mapM_cons, List.mapM_nil]
  cases hA : TensorExpr.evaluate A
      (routeProduct (TensorExpr.getIndices A) [] indices args []) with
  | error e => simp [hA, exceptErr_bind, Except.map]
  | ok r1 =>
      cases hB : TensorExpr.evaluate B
          (routeProduct (TensorExpr.getIndices B) [] indices args []) with
      | error e => simp [hA, hB, exceptOk_bind, exceptErr_bind, Except.map]
      | ok r2 => simp [hA, hB, exceptOk_bind, Except.map]

/-- C5: MultipliedTensor.Evaluate on the factory-built header equals the
specification sum over all value assignments of the contracted indices of the
products of the factors at name-routed arguments; with zero contracted
indices the sum is the single product term. -/
theorem claim5_multiplied_evaluate (A B : TensorExpr) (indices : List Index)
    (args : List Nat)
    (hidx : indices = contractIndices (TensorExpr.getIndices A) (TensorExpr.getIndices B))
    (hnodA : nodupNames (TensorExpr.getIndices A) = true)
    (hnodB : nodupNames (TensorExpr.getIndices B) = true)
    (hvr : validRanges (TensorExpr.getIndices A) = true)
    (hlen : args.length = indices.length) :
    TensorExpr.evaluate (.multiplied A B indices) args =
      multipliedSpecEval A B indices args ∧
    ((TensorExpr.getIndices A).filter (fun i => !(containsIndex indices i)) = [] →
      TensorExpr.evaluate (.multiplied A B indices) args = (do
        let r1 ← TensorExpr.evaluate A
          (routeProduct (TensorExpr.getIndices A) [] indices args [])
        let r2 ← TensorExpr.evaluate B
          (routeProduct (TensorExpr.getIndices B) [] indices args [])
        pure (r1 * r2))) := by
  have hmain := evaluate_multiplied_spec A B indices args hidx hnodA hnodB hvr hlen
  exact ⟨hmain, fun hfil => hmain.trans (multipliedSpecEval_nil A B indices args hfil)⟩

/-- C5 witness: a contracted product (gamma a b times gamma b c, with b
contracted) matches the specification sum on arguments one two, and a
disjoint product (gamma a b times gamma c d) is the single product term on
arguments one two three one. -/
theorem claim5_multiplied_evaluate_witness :
    (TensorExpr.evaluate (.multiplied gammaAB (.gammaT [idxB, idxC] 0 3)
        (contractIndices [idxA, idxB] [idxB, idxC])) [1, 2] =
      multipliedSpecEval gammaAB (.gammaT [idxB, idxC] 0 3)
        (contractIndices [idxA, idxB] [idxB, idxC]) [1, 2]) ∧
    (TensorExpr.evaluate (.multiplied gammaAB gammaCD
        (contractIndices [idxA, idxB] [idxC, idxD])) [1, 2, 3, 1] = (do
      let r1 ← TensorExpr.evaluate gammaAB (routeProduct [idxA, idxB] []
        (contractIndices [idxA, idxB] [idxC, idxD]) [1, 2, 3, 1] [])
      let r2 ← TensorExpr.evaluate gammaCD (routeProduct [idxC, idxD] []
        (contractIndices [idxA, idxB] [idxC, idxD]) [1, 2, 3, 1] [])
      pure (r1 * r2))) :=
  ⟨(claim5_multiplied_evaluate gammaAB (.gammaT [idxB, idxC] 0 3)
      (contractIndices [idxA, idxB] [idxB, idxC]) [1, 2] rfl (by decide) (by decide)
      (by decide) (by decide)).1,
   (claim5_multiplied_evaluate gammaAB gammaCD
      (contractIndices [idxA, idxB] [idxC, idxD]) [1, 2, 3, 1] rfl (by decide)
      (by decide) (by decide) (by decide)).2 rfl⟩

end Construction
